import Mathlib

/-!
Verification of the Epsilon firmware updater (CANopen SDO bootloader tool).

This file gives a shallow embedding of the protocol / codec core of the two
Python sources `update_firmware_v2.1.py` (production implementation) and
`update_firmware.py` (simple implementation), and proves the specification's
testable properties against it.

Byte strings are modelled as `List Nat` with every element `< 256` (Python
`bytes`), text as `List Char`, CAN frames as a structure holding the
arbitration id and the 8 data bytes, and the bus interactions of each
operation as explicit oracles (one received frame, or a list of frames in
arrival order, or a per-iteration response function).
-/

namespace Updater

/-! ## Hex digits and Python `int(s, 16)` / `f"{n:02X}"` formatting -/

/-- Uppercase hexadecimal digit character for `n < 16`
(mirrors the digits produced by Python's `"%02X"` formatting). -/
def hexDig (n : Nat) : Char :=
  if n < 10 then Char.ofNat (48 + n) else Char.ofNat (55 + n)

/-- Two-digit uppercase hex rendering of a byte, Python `f"{n:02X}"` for `n < 256`. -/
def hex2 (n : Nat) : List Char :=
  [hexDig (n / 16), hexDig (n % 16)]

/-- Four-digit uppercase hex rendering of a 16-bit value, Python `f"{n:04X}"`
for `n < 65536`. -/
def hex4 (n : Nat) : List Char :=
  [hexDig (n / 4096), hexDig (n / 256 % 16), hexDig (n / 16 % 16), hexDig (n % 16)]

/-- Value of one hexadecimal digit character (either case), `none` on any
other character — the failure branch models Python `int(c, 16)` raising. -/
def hexDigitVal (c : Char) : Option Nat :=
  if 48 ≤ c.toNat ∧ c.toNat ≤ 57 then some (c.toNat - 48)
  else if 65 ≤ c.toNat ∧ c.toNat ≤ 70 then some (c.toNat - 55)
  else if 97 ≤ c.toNat ∧ c.toNat ≤ 102 then some (c.toNat - 87)
  else none

/-- Accumulator loop of `int(s, 16)`. -/
def parseHexAux : List Char → Nat → Option Nat
  | [], acc => some acc
  | c :: cs, acc =>
    match hexDigitVal c with
    | some d => parseHexAux cs (16 * acc + d)
    | none => none

/-- Python `int(s, 16)` on a plain string of hex digits: `none` (an exception)
on the empty string or on any non-hex-digit character. -/
def parseHex (cs : List Char) : Option Nat :=
  if cs.isEmpty then none else parseHexAux cs 0

/-- Python string slice `s[a:b]` (for `0 ≤ a ≤ b`). -/
def slice (l : List Char) (a b : Nat) : List Char :=
  (l.drop a).take (b - a)

/-! ## Intel HEX records, as computed by `_bin_to_intel_hex` (v2.1)

The Python function computes the numeric fields of every record and
immediately formats them; we separate the record (`HexRecord`) from its
ASCII serialization (`recordLine`), with `bin_to_intel_hex` being the
composition, so the checksum/entry-point claims can speak about the
records and the round-trip claim about the text. -/

structure HexRecord where
  count : Nat
  address : Nat
  rtype : Nat
  data : List Nat
  checksum : Nat
deriving DecidableEq, Repr

/-- Python `(-(s)) & 0xFF`: two's complement of a sum, masked to 8 bits. -/
def neg8 (s : Nat) : Nat :=
  ((-(s : Int)) % 256).toNat

/-- Little-endian 32-bit decode, Python `struct.unpack('<I', bytes([b0,b1,b2,b3]))[0]`. -/
def le32 (b0 b1 b2 b3 : Nat) : Nat :=
  b0 + b1 * 256 + b2 * 65536 + b3 * 16777216

/-- Big-endian byte serialization of a 32-bit value, Python `struct.pack('>I', v)`. -/
def packBe32 (v : Nat) : List Nat :=
  [v >>> 24, (v >>> 16) &&& 0xFF, (v >>> 8) &&& 0xFF, v &&& 0xFF]

/-- Big-endian decode of the 4 data bytes of a StartLinearAddress record. -/
def be32 (l : List Nat) : Nat :=
  l.getD 0 0 * 16777216 + l.getD 1 0 * 65536 + l.getD 2 0 * 256 + l.getD 3 0

/-- ExtendedLinearAddress record (type 04): data is `struct.pack('>H', upper)`,
checksum `(-(2 + 0 + 0 + 4 + sum(ela_data))) & 0xFF`. -/
def elaRecord (upper : Nat) : HexRecord :=
  ⟨2, 0, 4, [upper >>> 8, upper &&& 0xFF],
    neg8 (2 + 0 + 0 + 4 + ((upper >>> 8) + (upper &&& 0xFF)))⟩

/-- Data record (type 00) for one chunk at a 16-bit address, checksum
`(-(byte_count + (address >> 8) + (address & 0xFF) + 0 + sum(chunk))) & 0xFF`. -/
def dataRecord (chunk : List Nat) (address : Nat) : HexRecord :=
  ⟨chunk.length, address, 0, chunk,
    neg8 (chunk.length + (address >>> 8) + (address &&& 0xFF) + 0 + chunk.sum)⟩

/-- StartLinearAddress record (type 05): data is `struct.pack('>I', reset_handler)`,
checksum `(-(4 + 0 + 0 + 5 + sum(sla_data))) & 0xFF`. -/
def slaRecord (resetHandler : Nat) : HexRecord :=
  ⟨4, 0, 5, packBe32 resetHandler, neg8 (4 + 0 + 0 + 5 + (packBe32 resetHandler).sum)⟩

/-- EndOfFile record, the literal line `":00000001FF"`. -/
def eofRecord : HexRecord := ⟨0, 0, 1, [], 0xFF⟩

/-- Data/ELA record stream of `_bin_to_intel_hex`'s main loop: walks the
binary in 16-byte chunks (`for offset in range(0, len(binary_data), 16)`),
emitting an ELA record whenever the upper 16 address bits change. -/
def dataRecords (base : Nat) : List Nat → Nat → Option Nat → List HexRecord
  | [], _, _ => []
  | b :: rest, offset, currentUpper =>
    let bin := b :: rest
    let chunk := bin.take 16
    let fullAddress := base + offset
    let upper := (fullAddress >>> 16) &&& 0xFFFF
    (if currentUpper = some upper then [] else [elaRecord upper]) ++
      dataRecord chunk (fullAddress &&& 0xFFFF) ::
        dataRecords base (bin.drop 16) (offset + 16) (some upper)
termination_by l _ _ => l.length
decreasing_by
  simp_wf
  have h1 := List.length_drop 16 (b :: rest)
  have h2 : (b :: rest).length = rest.length + 1 := List.length_cons b rest
  omega

/-- All records emitted by `_bin_to_intel_hex`: data records (with ELA
records interleaved), then the StartLinearAddress record when the binary is
at least 8 bytes (reset handler read little-endian at offset 4), then EOF. -/
def encodeRecords (binaryData : List Nat) (baseAddress : Nat) : List HexRecord :=
  dataRecords baseAddress binaryData 0 none ++
    (if 8 ≤ binaryData.length then
      [slaRecord (le32 (binaryData.getD 4 0) (binaryData.getD 5 0)
        (binaryData.getD 6 0) (binaryData.getD 7 0))]
    else []) ++ [eofRecord]

/-- ASCII serialization of one record, the Python f-string
`f":{byte_count:02X}{address:04X}{rtype:02X}{data.hex().upper()}{checksum:02X}"`
(without the trailing newline). -/
def recordLine (r : HexRecord) : List Char :=
  ':' :: (hex2 r.count ++ hex4 r.address ++ hex2 r.rtype ++
    (r.data.map hex2).flatten ++ hex2 r.checksum)

/-- `_bin_to_intel_hex(binary_data, base_address)` from `update_firmware_v2.1.py`:
the concatenation of all record lines, each terminated by a newline. -/
def bin_to_intel_hex (binaryData : List Nat) (baseAddress : Nat) : List Char :=
  ((encodeRecords binaryData baseAddress).map (fun r => recordLine r ++ ['\n'])).flatten

/-! ## The Intel HEX parser `parse_intel_hex` from `update_firmware.py` -/

/-- Mutable state of the parser loop: the output bytearray, the currently
active extended address, and the base address established by the first data
record. -/
structure PState where
  data : List Nat
  extendedAddr : Nat
  baseAddress : Option Nat
deriving DecidableEq, Repr

/-- Python list assignment `l[idx] = v` on a bytearray: non-negative indexes
from the front, negative indexes from the back, `none` models the
`IndexError` raised when the index is out of range. -/
def pySet (l : List Nat) (idx : Int) (v : Nat) : Option (List Nat) :=
  if 0 ≤ idx then
    if idx < (l.length : Int) then some (l.set idx.toNat v) else none
  else
    if -idx ≤ (l.length : Int) then some (l.set (l.length - (-idx).toNat) v) else none

/-- The byte-writing loop `for i in range(byte_count): data[offset+i] = int(...)`.
A failed hex parse or an `IndexError` is caught by the surrounding
`except`, keeping the bytes already written. -/
def writeBytes (line : List Char) (off : Int) (byteCount : Nat) : Nat → List Nat → List Nat
  | i, d =>
    if i < byteCount then
      match parseHex (slice line (9 + 2 * i) (11 + 2 * i)) with
      | none => d
      | some v =>
        match pySet d (off + (i : Int)) v with
        | none => d
        | some d2 => writeBytes line off byteCount (i + 1) d2
    else d
termination_by i _ => byteCount - i
decreasing_by simp_wf; omega

/-- Processing of one (already newline-stripped) line of the HEX file by
`parse_intel_hex`'s loop body: lines not starting with `':'` are skipped,
ELA records update the extended address, data records establish the base
address, pad any gap with `0xFF` and write their bytes; a parse failure
anywhere skips the rest of the line (the `except` branch). -/
def processLine (st : PState) (line : List Char) : PState :=
  if line.head? = some ':' then
    match parseHex (slice line 1 3), parseHex (slice line 3 7), parseHex (slice line 7 9) with
    | some byteCount, some address, some recordType =>
      if recordType = 4 then
        match parseHex (slice line 9 13) with
        | some e => { st with extendedAddr := e <<< 16 }
        | none => st
      else if recordType = 0 then
        let fullAddr := st.extendedAddr + address
        let base := st.baseAddress.getD fullAddr
        let off : Int := (fullAddr : Int) - (base : Int)
        let d0 := if (st.data.length : Int) < off + (byteCount : Int) then
            st.data ++ List.replicate (off + (byteCount : Int) - (st.data.length : Int)).toNat 0xFF
          else st.data
        ⟨writeBytes line off byteCount 0 d0, st.extendedAddr, some base⟩
      else st
    | _, _, _ => st
  else st

/-- Dropping a prefix never lengthens a list (helper for termination). -/
theorem length_dropWhile_le_self {α : Type} (p : α → Bool) :
    ∀ l : List α, (l.dropWhile p).length ≤ l.length := by
  intro l
  induction l with
  | nil => simp [List.dropWhile]
  | cons c cs ih =>
    cases h : p c <;> simp [List.dropWhile, h]
    exact le_trans ih (Nat.le_succ _)

/-- Splitting of the file text into newline-terminated lines, as Python's
file-line iteration followed by `line.strip()` (which removes the newline). -/
def splitLines : List Char → List (List Char)
  | [] => []
  | c :: cs =>
    (c :: cs).takeWhile (· ≠ '\n') ::
      splitLines (((c :: cs).dropWhile (· ≠ '\n')).drop 1)
termination_by l => l.length
decreasing_by
  simp_wf
  have h := length_dropWhile_le_self (fun x => !decide (x = '\n')) (c :: cs)
  have h2 : (c :: cs).length = cs.length + 1 := List.length_cons c cs
  omega

/-- `parse_intel_hex` from `update_firmware.py`: fold the line processor over
all lines starting from an empty bytearray, no extended address and no base
address, returning the accumulated bytes. -/
def parse_intel_hex (text : List Char) : List Nat :=
  ((splitLines text).foldl processLine ⟨[], 0, none⟩).data

/-! ## CAN frames and the SDO primitives -/

/-- One received CAN frame: arbitration id and the 8 data bytes. -/
structure Frame where
  arbitrationId : Nat
  data : List Nat
deriving DecidableEq, Repr

/-- Byte `i` of a frame's data (Python `response.data[i]` on an 8-byte
frame; out-of-range reads, which the sources never perform, default to 0). -/
def byteAt (d : List Nat) (i : Nat) : Nat :=
  d.getD i 0

/-- Abort code decode `struct.unpack('<I', response.data[4:8])[0]`. -/
def abortCodeOf (d : List Nat) : Nat :=
  le32 (byteAt d 4) (byteAt d 5) (byteAt d 6) (byteAt d 7)

/-- `_set_program(program)` from `update_firmware_v2.1.py`, abstracted over the
single response frame (or absence of one) the 1-second `recv` yields after
the expedited write to `0x1F51:01`.  A confirmation (`0x60`) yields `true`;
an abort (`0x80`) yields `true` exactly when its code is the SDO-timeout
value `0x05040000` (device already rebooting); any other frame, a frame
from another node, or no response at all falls through to `true`. -/
def set_program (nodeId programValue : Nat) (response : Option Frame) : Bool :=
  match response with
  | some r =>
    if r.arbitrationId = 0x580 + nodeId then
      if byteAt r.data 0 = 0x60 then true
      else if byteAt r.data 0 = 0x80 then
        decide (abortCodeOf r.data = 0x05040000)
      else true
    else true
  | none => true

/-- `get_firmware_status()` from `update_firmware.py` (the simple
implementation), abstracted over the single response frame of the read of
`0x1F57:01`.  On a 1-byte upload response (`0x4F`) it takes `value =
data[4]`, tests bit 0 for busy, and extracts the error code as
`(value >> 8) & 0x7F`. -/
def get_firmware_status (nodeId : Nat) (response : Option Frame) : Option (String × Nat) :=
  match response with
  | none => none
  | some r =>
    if r.arbitrationId = 0x580 + nodeId then
      if byteAt r.data 0 = 0x4F then
        let value := byteAt r.data 4
        let statusBit := value &&& 1
        if statusBit = 0 then
          let errorCode := (value >>> 8) &&& 0x7F
          if 0 < errorCode then some ("Error", errorCode) else some ("Ok", 0)
        else if statusBit = 1 then some ("Busy", 0)
        else none
      else none
    else none

/-- `_wait_for_sdo_response(timeout)` from `update_firmware_v2.1.py` over the
frames arriving within the bound, in order (`none` entries are empty `recv`
polls): heartbeat frames (`0x700+node`) and frames from other nodes are
discarded; the first frame with the node's SDO response id is returned;
exhausting the polls is the timeout. -/
def wait_for_sdo_response (nodeId : Nat) : List (Option Frame) → Option Frame
  | [] => none
  | p :: rest =>
    match p with
    | none => wait_for_sdo_response nodeId rest
    | some m =>
      if m.arbitrationId = 0x700 + nodeId then wait_for_sdo_response nodeId rest
      else if m.arbitrationId = 0x580 + nodeId then some m
      else wait_for_sdo_response nodeId rest

/-- Outcome of waiting for the download-initiate acknowledgment. -/
inductive InitResult where
  | ok
  | timeout
  | abort (code : Nat)
  | unexpected
deriving DecidableEq, Repr

/-- The initiate-response wait of `_sdo_segmented_download` in
`update_firmware_v2.1.py`: one `_wait_for_sdo_response(5.0)` call; no frame
is a timeout, command byte `0x80` is an abort, any command byte other than
`0x60` fails immediately with an unexpected-response error. -/
def initiate_v21 (nodeId : Nat) (polls : List (Option Frame)) : InitResult :=
  match wait_for_sdo_response nodeId polls with
  | none => .timeout
  | some r =>
    if byteAt r.data 0 = 0x80 then .abort (abortCodeOf r.data)
    else if byteAt r.data 0 = 0x60 then .ok
    else .unexpected

/-- The initiate-response wait of `_sdo_segmented_download` in
`update_firmware.py` (the simple implementation): a 5-second polling loop;
frames from other nodes are skipped, command byte `0x80` aborts, any
command byte other than `0x60` is skipped and the wait continues
(`continue  # Keep waiting`), and exhausting the bound is the timeout. -/
def initiate_simple (nodeId : Nat) : List (Option Frame) → InitResult
  | [] => .timeout
  | p :: rest =>
    match p with
    | none => initiate_simple nodeId rest
    | some r =>
      if r.arbitrationId ≠ 0x580 + nodeId then initiate_simple nodeId rest
      else if byteAt r.data 0 = 0x80 then .abort (abortCodeOf r.data)
      else if byteAt r.data 0 ≠ 0x60 then initiate_simple nodeId rest
      else .ok

/-! ## The segment loop of `_sdo_segmented_download`

The segment phase (identical in both implementations apart from the
cancellation check, which only `update_firmware_v2.1.py` performs) is
modelled over two oracles indexed by the segment counter: `cancel i` is the
value `cancellation_token.is_cancelled()` reads at the top of iteration
`i`, and `resp i` is the frame `_wait_for_sdo_response(2.0)` returns after
segment `i` was sent (`none` is a timeout).  The result records how the
loop ended together with the list of segment frames actually sent, each as
`(command byte, 7 padded payload bytes)` — the CAN frame sent is
`cmd :: payload`. -/

/-- Outcome of the segmented-download segment loop. -/
inductive DlResult where
  | ok
  | cancelled
  | timeout
  | abort (code : Nat)
  | unexpected
  | toggleMismatch
deriving DecidableEq, Repr

/-- Segment loop of `_sdo_segmented_download` (v2.1), from a given remaining
payload, toggle value and segment counter. -/
def segLoopAux (resp : Nat → Option (List Nat)) (cancel : Nat → Bool) :
    List Nat → Nat → Nat → DlResult × List (Nat × List Nat)
  | [], _, _ => (.ok, [])
  | b :: rest, toggle, segmentNum =>
    let d := b :: rest
    if cancel segmentNum then (.cancelled, [])
    else
      let segmentData := d.take 7
      let bytesInSegment := segmentData.length
      let isLast : Bool := decide (d.length ≤ 7)
      let cmd := ((toggle <<< 4) ||| (if isLast then 1 else 0)) |||
        ((7 - bytesInSegment) <<< 1)
      let padded := segmentData ++ List.replicate (7 - segmentData.length) 0
      match resp segmentNum with
      | none => (.timeout, [(cmd, padded)])
      | some rd =>
        if byteAt rd 0 = 0x80 then (.abort (abortCodeOf rd), [(cmd, padded)])
        else if (byteAt rd 0 &&& 0xE0) ≠ 0x20 then (.unexpected, [(cmd, padded)])
        else if ((byteAt rd 0 >>> 4) &&& 1) ≠ toggle then (.toggleMismatch, [(cmd, padded)])
        else
          let tail := segLoopAux resp cancel (d.drop 7) (1 - toggle) (segmentNum + 1)
          (tail.1, (cmd, padded) :: tail.2)
termination_by l _ _ => l.length
decreasing_by
  simp_wf
  have h1 := List.length_drop 7 (b :: rest)
  have h2 : (b :: rest).length = rest.length + 1 := List.length_cons b rest
  omega

/-- The whole segment phase: `offset = 0`, `toggle = 0`, `segment_num = 0`. -/
def segLoop (resp : Nat → Option (List Nat)) (cancel : Nat → Bool)
    (data : List Nat) : DlResult × List (Nat × List Nat) :=
  segLoopAux resp cancel data 0 0

/-! ## The update orchestrator `program` of `update_firmware_v2.1.py`

The orchestrator's phase sequencing is modelled with each sub-operation
abstracted to its outcome (an `Env` oracle), since each is a separate bus
conversation.  Progress notifications are accumulated in order.  The
cancellation token's value at each of the four `program`-level checkpoints
is a separate oracle field, covering every possible schedule of the
caller setting the token. -/

/-- The `Progress` enum of `update_firmware_v2.1.py`. -/
inductive Progress where
  | file
  | bootloader
  | flashing
  | verifying
  | application
deriving DecidableEq, Repr

/-- The `State` enum of `update_firmware_v2.1.py`. -/
inductive UState where
  | busy
  | failed
  | cancelled
  | success
deriving DecidableEq, Repr

/-- Outcomes of the orchestrator's sub-operations and the cancellation
token's value at each checkpoint. -/
structure Env where
  readFileResult : Option (List Nat)
  initialMode : Option Nat
  enterBootOk : Bool
  flashOk : Bool
  verifyOk : Bool
  returnOk : Bool
  tokAtFlashCheck : Bool
  tokAtVerifyCheck : Bool
  tokAtCleanupCheck : Bool
  tokAtFinalCheck : Bool

/-- The `finally` block (phase 5, return to application): skipped entirely
for a bootloader image; otherwise checks the token only when the device
never entered the bootloader, then reports the `application` phase busy and
its outcome.  Returns whether an `InterruptedError` was raised together
with the events so far. -/
def cleanupPhase (env : Env) (isBootloaderFile inBootloader : Bool)
    (ev : List (Progress × UState)) : Bool × List (Progress × UState) :=
  if isBootloaderFile then (false, ev)
  else if ¬inBootloader ∧ env.tokAtCleanupCheck then (true, ev)
  else
    let ev := ev ++ [(Progress.application, UState.busy)]
    (false, ev ++ [if env.returnOk then (Progress.application, UState.success)
      else (Progress.application, UState.failed)])

/-- Phases 3-5 of `program`: the inner `try` (flash, verify) with its
`finally` (return to application).  `flashed` starts false; the line-155
check (`if self.flashed: throw_if_cancelled()`) and the line-174 check
(`if not self.flashed: ...`) are modelled with the tracked `flashed` value
at those points.  An exception from a failed phase runs the `finally` and
then propagates to the outer handler, returning `False`. -/
def flashAndVerify (env : Env) (isBootloaderFile inBootloader : Bool)
    (ev : List (Progress × UState)) : Bool × List (Progress × UState) :=
  let flashed := false
  if flashed ∧ env.tokAtFlashCheck then (false, ev)
  else
    let ev := ev ++ [(Progress.flashing, UState.busy)]
    if ¬env.flashOk then
      let ev := ev ++ [(Progress.flashing, UState.failed)]
      let cleanup := cleanupPhase env isBootloaderFile inBootloader ev
      (false, cleanup.2)
    else
      let flashed := true
      let ev := ev ++ [(Progress.flashing, UState.success)]
      if ¬flashed ∧ env.tokAtVerifyCheck then (false, ev)
      else
        let ev := ev ++ [(Progress.verifying, UState.busy)]
        if ¬env.verifyOk then
          let ev := ev ++ [(Progress.verifying, UState.failed)]
          let cleanup := cleanupPhase env isBootloaderFile inBootloader ev
          (false, cleanup.2)
        else
          let ev := ev ++ [(Progress.verifying, UState.success)]
          let cleanup := cleanupPhase env isBootloaderFile inBootloader ev
          if cleanup.1 then (false, cleanup.2)
          else if ¬flashed ∧ env.tokAtFinalCheck then (false, cleanup.2)
          else (true, cleanup.2)

/-- `program(firmware_path, is_bootloader_file, callback, cancellation_token)`
from `update_firmware_v2.1.py`: read file, enter bootloader (skipped with an
immediate success report when the device already reports mode 0), then
flash + verify with the guaranteed return-to-application cleanup.  Returns
the overall result and the `(phase, state)` notifications in order. -/
def program (env : Env) (isBootloaderFile : Bool) : Bool × List (Progress × UState) :=
  let ev := [(Progress.file, UState.busy)]
  match env.readFileResult with
  | none => (false, ev ++ [(Progress.file, UState.failed)])
  | some _ =>
    let ev := ev ++ [(Progress.file, UState.success)]
    if env.initialMode = some 0 then
      let ev := ev ++ [(Progress.bootloader, UState.success)]
      flashAndVerify env isBootloaderFile true ev
    else
      let ev := ev ++ [(Progress.bootloader, UState.busy)]
      if ¬env.enterBootOk then (false, ev ++ [(Progress.bootloader, UState.failed)])
      else
        let ev := ev ++ [(Progress.bootloader, UState.success)]
        flashAndVerify env isBootloaderFile true ev

/-! ## Arithmetic helpers for shifts and masks -/

/-- Masking with `0xFF` is reduction modulo 256. -/
theorem and_255_eq_mod (x : Nat) : x &&& 255 = x % 256 := by
  have h := Nat.and_pow_two_sub_one_eq_mod x 8
  norm_num at h
  exact h

/-- Masking with `0xFFFF` is reduction modulo 65536. -/
theorem and_65535_eq_mod (x : Nat) : x &&& 65535 = x % 65536 := by
  have h := Nat.and_pow_two_sub_one_eq_mod x 16
  norm_num at h
  exact h

/-- Masking with `0x7F` is reduction modulo 128. -/
theorem and_127_eq_mod (x : Nat) : x &&& 127 = x % 128 := by
  have h := Nat.and_pow_two_sub_one_eq_mod x 7
  norm_num at h
  exact h

/-- Masking with `0x07` is reduction modulo 8. -/
theorem and_7_eq_mod (x : Nat) : x &&& 7 = x % 8 := by
  have h := Nat.and_pow_two_sub_one_eq_mod x 3
  norm_num at h
  exact h

/-- Right shift by 8 is division by 256. -/
theorem shiftRight_8_eq_div (x : Nat) : x >>> 8 = x / 256 := by
  have h := Nat.shiftRight_eq_div_pow x 8
  norm_num at h
  exact h

/-- Right shift by 16 is division by 65536. -/
theorem shiftRight_16_eq_div (x : Nat) : x >>> 16 = x / 65536 := by
  have h := Nat.shiftRight_eq_div_pow x 16
  norm_num at h
  exact h

/-! ## Claim C6: `writeMode` (`_set_program`) result classification -/

/-- Claim C6: for every response the device may give to the single-byte
mode-write, `_set_program` returns `true` on a write-confirmation response
(`0x60`); returns `true` on an abort response (`0x80`) whose 32-bit
little-endian code equals the SDO-access-timeout value `0x05040000`;
returns `false` on an abort response with any other code; and returns
`true` when no response arrives at all within the wait bound. -/
theorem claim_C6 (nodeId programValue : Nat) (r : Frame)
    (hid : r.arbitrationId = 0x580 + nodeId) :
    (byteAt r.data 0 = 0x60 → set_program nodeId programValue (some r) = true)
    ∧ (byteAt r.data 0 = 0x80 → abortCodeOf r.data = 0x05040000 →
        set_program nodeId programValue (some r) = true)
    ∧ (byteAt r.data 0 = 0x80 → abortCodeOf r.data ≠ 0x05040000 →
        set_program nodeId programValue (some r) = false)
    ∧ set_program nodeId programValue none = true := by
  refine ⟨fun h => ?_, fun h habort => ?_, fun h habort => ?_, rfl⟩
  · simp [set_program, hid, h]
  · simp [set_program, hid, h, habort]
  · simp [set_program, hid, h, habort]

/-- Witness for C6 at node 1 with an abort frame carrying code `0x05040000`. -/
theorem claim_C6_witness :
    (Frame.mk 0x581 [0x80, 0x51, 0x1F, 0x01, 0x00, 0x00, 0x04, 0x05]).arbitrationId
        = 0x580 + 1
    ∧ ((Frame.mk 0x581 [0x80, 0x51, 0x1F, 0x01, 0x00, 0x00, 0x04, 0x05]).data.getD 0 0 = 0x80 →
        abortCodeOf (Frame.mk 0x581 [0x80, 0x51, 0x1F, 0x01, 0x00, 0x00, 0x04, 0x05]).data
          = 0x05040000 →
        set_program 1 0 (some (Frame.mk 0x581 [0x80, 0x51, 0x1F, 0x01, 0x00, 0x00, 0x04, 0x05]))
          = true) :=
  ⟨rfl, (claim_C6 1 0 _ rfl).2.1⟩

/-! ## Claim C10: the simple implementation's status read never reports Error -/

/-- Claim C10: for every status byte the device can return, the simple
implementation's `get_firmware_status` never returns an `("Error", code)`
result — its error code is bits 8-14 of a value that is a single byte,
hence always 0 — and its possible non-`None` results are exactly
`("Ok", 0)` and `("Busy", 0)` (both reachable, as the last two conjuncts
show). -/
theorem claim_C10 (nodeId : Nat) (response : Option Frame)
    (hbyte : ∀ f, response = some f → byteAt f.data 4 < 256) :
    (∀ c, get_firmware_status nodeId response ≠ some ("Error", c))
    ∧ (get_firmware_status nodeId response = none
       ∨ get_firmware_status nodeId response = some ("Ok", 0)
       ∨ get_firmware_status nodeId response = some ("Busy", 0))
    ∧ get_firmware_status 1 (some (Frame.mk 0x581 [0x4F, 0x57, 0x1F, 0x01, 0, 0, 0, 0]))
        = some ("Ok", 0)
    ∧ get_firmware_status 1 (some (Frame.mk 0x581 [0x4F, 0x57, 0x1F, 0x01, 1, 0, 0, 0]))
        = some ("Busy", 0) := by
  refine ⟨?_, ?_, by decide, by decide⟩ <;>
  · cases response with
    | none => simp [get_firmware_status]
    | some r =>
      have hb : byteAt r.data 4 < 256 := hbyte r rfl
      have hz : (byteAt r.data 4 >>> 8) &&& 0x7F = 0 := by
        rw [shiftRight_8_eq_div, Nat.div_eq_of_lt hb]
        rfl
      have hbit := Nat.mod_two_eq_zero_or_one (byteAt r.data 4)
      rw [← Nat.and_one_is_mod] at hbit
      simp only [get_firmware_status, hz]
      rcases hbit with h1 | h1 <;>
        by_cases hid : r.arbitrationId = 0x580 + nodeId <;>
        by_cases hcmd : byteAt r.data 0 = 0x4F <;>
        simp [hid, hcmd, h1]

/-- Witness for C10 at a concrete single-byte status response. -/
theorem claim_C10_witness :
    (∀ f, some (Frame.mk 0x581 [0x4F, 0x57, 0x1F, 0x01, 4, 0, 0, 0]) = some f →
      byteAt f.data 4 < 256)
    ∧ (∀ c, get_firmware_status 1 (some (Frame.mk 0x581 [0x4F, 0x57, 0x1F, 0x01, 4, 0, 0, 0]))
        ≠ some ("Error", c)) :=
  ⟨fun f hf => by cases hf; decide,
   (claim_C10 1 _ (fun f hf => by cases hf; decide)).1⟩

/-! ## Claim C7: tolerance of unexpected initiate-response frames

The two implementations genuinely differ here: the simple implementation
keeps waiting on an unexpected command byte, while v2.1 fails the download
immediately. -/

/-- Counterexample to claim C7 as stated: in `update_firmware_v2.1.py` (one
of the claim's two cited code places), a frame from the target node whose
command byte is `0x42` — neither abort `0x80` nor acknowledge `0x60` —
makes the download fail immediately with an unexpected-response error
instead of continuing to wait for the 5-second bound (`Timeout`). -/
theorem claim_C7_counterexample :
    initiate_v21 1 [some (Frame.mk 0x581 [0x42, 0, 0, 0, 0, 0, 0, 0])]
      = InitResult.unexpected
    ∧ initiate_v21 1 [some (Frame.mk 0x581 [0x42, 0, 0, 0, 0, 0, 0, 0])]
      ≠ InitResult.timeout := by
  constructor <;> decide

/-- Claim C7 (amended): in the simple implementation (`update_firmware.py`),
every received frame from the target node whose command byte is neither
`0x80` nor `0x60` is skipped and the wait continues, failing with `Timeout`
only when the bound elapses; in `update_firmware_v2.1.py`, the first such
frame fails the download immediately with an unexpected-response error. -/
theorem claim_C7 :
    (∀ (nodeId : Nat) (polls : List (Option Frame)),
      (∀ f : Frame, some f ∈ polls → f.arbitrationId = 0x580 + nodeId →
        byteAt f.data 0 ≠ 0x80 ∧ byteAt f.data 0 ≠ 0x60) →
      initiate_simple nodeId polls = InitResult.timeout)
    ∧ (∀ (nodeId : Nat) (polls : List (Option Frame)) (r : Frame),
      wait_for_sdo_response nodeId polls = some r →
      byteAt r.data 0 ≠ 0x80 → byteAt r.data 0 ≠ 0x60 →
      initiate_v21 nodeId polls = InitResult.unexpected) := by
  constructor
  · intro nodeId polls
    induction polls with
    | nil => intro _; rfl
    | cons p rest ih =>
      intro h
      have hrest := ih (fun f hf hid => h f (List.mem_cons_of_mem _ hf) hid)
      cases p with
      | none => simpa [initiate_simple] using hrest
      | some r =>
        by_cases hid : r.arbitrationId = 0x580 + nodeId
        · have hcmd := h r (List.mem_cons_self _ _) hid
          simpa [initiate_simple, hid, hcmd.1, hcmd.2] using hrest
        · simpa [initiate_simple, hid] using hrest
  · intro nodeId polls r hwait h80 h60
    simp [initiate_v21, hwait, h80, h60]

/-- Witness for C7: a heartbeat, an empty poll and a stray `0x42`-command
frame leave the simple implementation waiting to its timeout, while the
v2.1 implementation fails on the stray frame. -/
theorem claim_C7_witness :
    initiate_simple 1 [some (Frame.mk 0x701 [0x05, 0, 0, 0, 0, 0, 0, 0]), none,
        some (Frame.mk 0x581 [0x42, 0, 0, 0, 0, 0, 0, 0])] = InitResult.timeout
    ∧ initiate_v21 1 [none, some (Frame.mk 0x581 [0x30, 1, 2, 3, 4, 5, 6, 7])]
        = InitResult.unexpected :=
  ⟨claim_C7.1 1 _ (by
      intro f hf hid
      simp at hf
      rcases hf with h | h <;> subst h
      · exact absurd hid (by decide)
      · exact ⟨by decide, by decide⟩),
   claim_C7.2 1 _ (Frame.mk 0x581 [0x30, 1, 2, 3, 4, 5, 6, 7]) rfl
     (by decide) (by decide)⟩

/-! ## Claim C4: cancellation mid-flash

The spec (and the code's own comments, `PHASE 3: Flash Firmware (NEVER
INTERRUPTED)` / `CRITICAL: Upload MUST complete - do not interrupt!`)
require the segment loop to run to completion once flashing has begun, but
the loop in `_sdo_segmented_download` checks the cancellation token at the
top of every iteration and returns early — the theorem below evaluates the
loop on an 8-byte payload whose token becomes set after the first segment
was sent and acknowledged, producing a cancellation result mid-transfer. -/

/-- Claim C4 (refuting evaluation): with an 8-byte payload, correct segment
acknowledgments and a cancellation token that is set from the second loop
iteration on, the v2.1 segment loop returns `cancelled` after having
transmitted exactly one segment — a soft cancel after the first firmware
segment was transmitted, contradicting the claim. -/
theorem claim_C4 :
    (segLoop (fun i => some [if i % 2 = 0 then 0x20 else 0x30, 0, 0, 0, 0, 0, 0, 0])
      (fun i => decide (1 ≤ i)) (List.replicate 8 1)).1 = DlResult.cancelled
    ∧ (segLoop (fun i => some [if i % 2 = 0 then 0x20 else 0x30, 0, 0, 0, 0, 0, 0, 0])
      (fun i => decide (1 ≤ i)) (List.replicate 8 1)).2.length = 1 := by
  have h : segLoop (fun i => some [if i % 2 = 0 then 0x20 else 0x30, 0, 0, 0, 0, 0, 0, 0])
      (fun i => decide (1 ≤ i)) (List.replicate 8 1)
      = (DlResult.cancelled, [(0, [1, 1, 1, 1, 1, 1, 1])]) := by
    simp [segLoop, segLoopAux, byteAt]
    decide
  rw [h]
  exact ⟨rfl, rfl⟩

/-! ## Claims C5 and C9: orchestrator cleanup guarantees -/

/-- Claim C5: for every run of the orchestrator on a non-bootloader image
that reaches the Flash phase (the file was read, and the device either
already reported bootloader mode or the mode switch succeeded) and in which
the Flash phase fails — whatever the reason —, the ReturnToApplication
phase is still executed and reported to the progress sink (busy, then its
outcome), and the overall result is failure. -/
theorem claim_C5 (env : Env) (buf : List Nat)
    (hread : env.readFileResult = some buf)
    (hboot : env.initialMode = some 0 ∨ env.enterBootOk = true)
    (hflash : env.flashOk = false) :
    (program env false).1 = false
    ∧ (Progress.application, UState.busy) ∈ (program env false).2
    ∧ ((Progress.application, UState.success) ∈ (program env false).2
       ∨ (Progress.application, UState.failed) ∈ (program env false).2) := by
  rcases env with ⟨rf, im, eb, fo, vo, ro, t1, t2, t3, t4⟩
  simp only at hread hflash
  subst hread hflash
  rcases hboot with h | h <;> simp only at h
  · subst h
    cases ro <;>
      simp [program, flashAndVerify, cleanupPhase]
  · subst h
    by_cases him : im = some 0 <;> cases ro <;>
      simp [program, flashAndVerify, cleanupPhase, him]

/-- Witness for C5 at a concrete environment: device already in bootloader,
flash fails, return-to-application succeeds. -/
theorem claim_C5_witness :
    (program (Env.mk (some [1]) (some 0) true false true true false false false false) false).1
      = false
    ∧ (Progress.application, UState.busy)
      ∈ (program (Env.mk (some [1]) (some 0) true false true true false false false false)
          false).2 :=
  ⟨(claim_C5 _ [1] rfl (Or.inl rfl) rfl).1, (claim_C5 _ [1] rfl (Or.inl rfl) rfl).2.1⟩

/-- Claim C9: in every run of the orchestrator (on a non-bootloader image)
in which the ReadFile, EnterBootloader, Flash and Verify phases all
succeed, the orchestrator returns overall success even when the final
ReturnToApplication phase fails; the cleanup failure is reported to the
progress sink as a `failed` state but never changes the returned result. -/
theorem claim_C9 (env : Env) (buf : List Nat)
    (hread : env.readFileResult = some buf)
    (hboot : env.initialMode = some 0 ∨ env.enterBootOk = true)
    (hflash : env.flashOk = true)
    (hverify : env.verifyOk = true)
    (hreturn : env.returnOk = false) :
    (program env false).1 = true
    ∧ (Progress.application, UState.failed) ∈ (program env false).2 := by
  rcases env with ⟨rf, im, eb, fo, vo, ro, t1, t2, t3, t4⟩
  simp only at hread hflash hverify hreturn
  subst hread hflash hverify hreturn
  rcases hboot with h | h <;> simp only at h <;> subst h
  · simp [program, flashAndVerify, cleanupPhase]
  · by_cases him : im = some 0 <;>
      simp [program, flashAndVerify, cleanupPhase, him]

/-- Witness for C9 at a concrete environment: all main phases succeed, the
cleanup mode switch fails, the update still reports success. -/
theorem claim_C9_witness :
    (program (Env.mk (some [1]) (some 1) true true true false false false false false) false).1
      = true
    ∧ (Progress.application, UState.failed)
      ∈ (program (Env.mk (some [1]) (some 1) true true true false false false false false)
          false).2 :=
  claim_C9 _ [1] rfl (Or.inr rfl) rfl rfl rfl

/-! ## Claims C3 and C8: record-level properties of the encoder -/

/-- The checksum byte completes any sum to a multiple of 256. -/
theorem neg8_sum (s : Nat) : (s + neg8 s) % 256 = 0 := by
  unfold neg8
  omega

/-- Every record of the encoder's main loop is an ELA or a data record. -/
theorem dataRecords_shape (base : Nat) :
    ∀ (n : Nat) (l : List Nat) (off : Nat) (cur : Option Nat) (r : HexRecord),
      l.length ≤ n → r ∈ dataRecords base l off cur →
      (∃ u, r = elaRecord u) ∨ ∃ c a, r = dataRecord c a := by
  intro n
  induction n with
  | zero =>
    intro l off cur r hlen hmem
    have : l = [] := List.length_eq_zero.mp (Nat.le_zero.mp hlen)
    subst this
    simp [dataRecords] at hmem
  | succ n ih =>
    intro l off cur r hlen hmem
    cases l with
    | nil => simp [dataRecords] at hmem
    | cons b rest =>
      rw [dataRecords] at hmem
      simp only [List.mem_append, List.mem_cons] at hmem
      rcases hmem with hela | hdata | hrec
      · left
        by_cases hc : cur = some (((base + off) >>> 16) &&& 0xFFFF) <;>
          simp [hc] at hela
        exact ⟨_, hela⟩
      · right
        exact ⟨_, _, hdata⟩
      · have hlen2 : ((b :: rest).drop 16).length ≤ n := by
          have := List.length_drop 16 (b :: rest)
          simp at hlen ⊢
          omega
        exact ih _ _ _ _ hlen2 hrec

/-- Claim C3: for every Intel HEX record emitted by `_bin_to_intel_hex`
(data, ExtendedLinearAddress, StartLinearAddress and EndOfFile records
alike), the sum modulo 256 of all of the record's serialized bytes — byte
count, address high byte, address low byte, record type, data bytes, and
the checksum byte itself — equals 0. -/
theorem claim_C3 (B : List Nat) (A : Nat) (r : HexRecord)
    (hmem : r ∈ encodeRecords B A) :
    (r.count + (r.address >>> 8) + (r.address &&& 0xFF) + r.rtype
      + r.data.sum + r.checksum) % 256 = 0 := by
  have hshape : (∃ u, r = elaRecord u) ∨ (∃ c a, r = dataRecord c a)
      ∨ (∃ v, r = slaRecord v) ∨ r = eofRecord := by
    unfold encodeRecords at hmem
    simp only [List.mem_append, List.mem_cons, List.not_mem_nil, or_false] at hmem
    rcases hmem with (hd | hs) | he
    · rcases dataRecords_shape A B.length B 0 none r le_rfl hd with h | h
      · exact Or.inl h
      · exact Or.inr (Or.inl h)
    · by_cases h8 : 8 ≤ B.length
      · simp [h8] at hs
        exact Or.inr (Or.inr (Or.inl ⟨_, hs⟩))
      · simp [h8] at hs
    · exact Or.inr (Or.inr (Or.inr he))
  rcases hshape with ⟨u, h⟩ | ⟨c, a, h⟩ | ⟨v, h⟩ | h <;> subst h
  · show (2 + (0 >>> 8) + (0 &&& 0xFF) + 4 + ((u >>> 8) + ((u &&& 0xFF) + 0))
      + neg8 (2 + 0 + 0 + 4 + ((u >>> 8) + (u &&& 0xFF)))) % 256 = 0
    have h0 : (0 : Nat) >>> 8 = 0 := rfl
    have h1 : (0 : Nat) &&& 0xFF = 0 := rfl
    have hs := neg8_sum (2 + 0 + 0 + 4 + ((u >>> 8) + (u &&& 0xFF)))
    omega
  · show (c.length + (a >>> 8) + (a &&& 0xFF) + 0 + c.sum
      + neg8 (c.length + (a >>> 8) + (a &&& 0xFF) + 0 + c.sum)) % 256 = 0
    exact neg8_sum _
  · show (4 + (0 >>> 8) + (0 &&& 0xFF) + 5 + (packBe32 v).sum
      + neg8 (4 + 0 + 0 + 5 + (packBe32 v).sum)) % 256 = 0
    have h0 : (0 : Nat) >>> 8 = 0 := rfl
    have h1 : (0 : Nat) &&& 0xFF = 0 := rfl
    have hs := neg8_sum (4 + 0 + 0 + 5 + (packBe32 v).sum)
    omega
  · decide

/-- Witness for C3 at the EndOfFile record of the empty binary. -/
theorem claim_C3_witness :
    eofRecord ∈ encodeRecords [] 0
    ∧ (eofRecord.count + (eofRecord.address >>> 8) + (eofRecord.address &&& 0xFF)
        + eofRecord.rtype + eofRecord.data.sum + eofRecord.checksum) % 256 = 0 :=
  ⟨by simp [encodeRecords, dataRecords],
   claim_C3 [] 0 eofRecord (by simp [encodeRecords, dataRecords])⟩

/-- An in-range default-read of a list is one of its elements. -/
theorem getD_mem_of_lt (l : List Nat) (i : Nat) (h : i < l.length) : l.getD i 0 ∈ l := by
  rw [List.getD_eq_getElem?_getD, List.getElem?_eq_getElem h]
  exact List.getElem_mem h

/-- Big-endian packing then decoding is the identity on 32-bit values. -/
theorem be32_packBe32 (v : Nat) (hv : v < 4294967296) : be32 (packBe32 v) = v := by
  show (v >>> 24) * 16777216 + ((v >>> 16) &&& 0xFF) * 65536
    + ((v >>> 8) &&& 0xFF) * 256 + (v &&& 0xFF) = v
  have h24 : v >>> 24 = v / 16777216 := by
    have h := Nat.shiftRight_eq_div_pow v 24
    norm_num at h
    exact h
  rw [h24, shiftRight_16_eq_div, shiftRight_8_eq_div, and_255_eq_mod, and_255_eq_mod,
    and_255_eq_mod]
  omega

/-- The little-endian decode of four bytes is a 32-bit value. -/
theorem le32_lt (b0 b1 b2 b3 : Nat) (h0 : b0 < 256) (h1 : b1 < 256) (h2 : b2 < 256)
    (h3 : b3 < 256) : le32 b0 b1 b2 b3 < 4294967296 := by
  unfold le32
  omega

/-- Claim C8: for every input binary of length at least 8 bytes, the encoder
emits exactly one StartLinearAddress record, and its 32-bit entry point
(the big-endian decode of its 4 data bytes) equals the little-endian value
at byte offsets 4..7 of the binary; for every binary shorter than 8 bytes,
no StartLinearAddress record is emitted and encoding still succeeds, ending
with the EndOfFile record. -/
theorem claim_C8 (B : List Nat) (A : Nat) (hb : ∀ b ∈ B, b < 256) :
    (8 ≤ B.length →
      (encodeRecords B A).filter (fun r => r.rtype == 5)
        = [slaRecord (le32 (B.getD 4 0) (B.getD 5 0) (B.getD 6 0) (B.getD 7 0))]
      ∧ be32 (slaRecord (le32 (B.getD 4 0) (B.getD 5 0) (B.getD 6 0) (B.getD 7 0))).data
        = le32 (B.getD 4 0) (B.getD 5 0) (B.getD 6 0) (B.getD 7 0))
    ∧ (B.length < 8 →
      (encodeRecords B A).filter (fun r => r.rtype == 5) = []
      ∧ (encodeRecords B A).getLast? = some eofRecord) := by
  have hdata : ∀ r ∈ dataRecords A B 0 none, ¬(r.rtype == 5) = true := by
    intro r hr
    rcases dataRecords_shape A B.length B 0 none r le_rfl hr with ⟨u, h⟩ | ⟨c, a, h⟩ <;>
      subst h <;> simp [elaRecord, dataRecord]
  have hfdata : (dataRecords A B 0 none).filter (fun r => r.rtype == 5) = [] :=
    List.filter_eq_nil_iff.mpr hdata
  have hlast : (encodeRecords B A).getLast? = some eofRecord := by
    unfold encodeRecords
    rw [List.getLast?_append_of_ne_nil _ (by simp)]
    rfl
  constructor
  · intro h8
    have hb4 : B.getD 4 0 < 256 := hb _ (getD_mem_of_lt B 4 (by omega))
    have hb5 : B.getD 5 0 < 256 := hb _ (getD_mem_of_lt B 5 (by omega))
    have hb6 : B.getD 6 0 < 256 := hb _ (getD_mem_of_lt B 6 (by omega))
    have hb7 : B.getD 7 0 < 256 := hb _ (getD_mem_of_lt B 7 (by omega))
    constructor
    · unfold encodeRecords
      rw [List.filter_append, List.filter_append, hfdata, if_pos h8]
      simp [slaRecord, eofRecord]
    · exact be32_packBe32 _ (le32_lt _ _ _ _ hb4 hb5 hb6 hb7)
  · intro hlt
    refine ⟨?_, hlast⟩
    unfold encodeRecords
    rw [List.filter_append, List.filter_append, hfdata, if_neg (by omega)]
    simp [eofRecord]

/-- Witness for C8: an 8-byte binary and a 4-byte binary. -/
theorem claim_C8_witness :
    (8 ≤ ([1, 2, 3, 4, 5, 6, 7, 8] : List Nat).length →
      (encodeRecords [1, 2, 3, 4, 5, 6, 7, 8] 0).filter (fun r => r.rtype == 5)
        = [slaRecord (le32 5 6 7 8)])
    ∧ (([1, 2, 3, 4] : List Nat).length < 8 →
      (encodeRecords [1, 2, 3, 4] 0).filter (fun r => r.rtype == 5) = []) :=
  ⟨fun h8 => ((claim_C8 [1, 2, 3, 4, 5, 6, 7, 8] 0 (by decide)).1 h8).1,
   fun hlt => ((claim_C8 [1, 2, 3, 4] 0 (by decide)).2 hlt).1⟩

/-! ## Claim C2: segment count and command bytes -/

/-- Numeric value of a segment command byte: toggle bit 4, last-segment
bit 0, unused-byte count in bits 1-3. -/
theorem cmd_eq_arith : ∀ t < 2, ∀ u < 2, ∀ m < 8,
    ((t <<< 4) ||| u) ||| (m <<< 1) = 16 * t + u + 2 * m := by decide

/-- One successful iteration of the segment loop. -/
theorem segLoopAux_cons (resp : Nat → Option (List Nat)) (cancel : Nat → Bool)
    (b : Nat) (rest : List Nat) (t s : Nat)
    (hc : cancel s = false) (rd : List Nat) (hr : resp s = some rd)
    (h80 : byteAt rd 0 ≠ 0x80) (hE0 : byteAt rd 0 &&& 0xE0 = 0x20)
    (htog : (byteAt rd 0 >>> 4) % 2 = t) :
    segLoopAux resp cancel (b :: rest) t s =
      ((segLoopAux resp cancel ((b :: rest).drop 7) (1 - t) (s + 1)).1,
        (((t <<< 4) ||| (if (b :: rest).length ≤ 7 then 1 else 0)) |||
            ((7 - min 7 (b :: rest).length) <<< 1),
          (b :: rest).take 7 ++ List.replicate (7 - min 7 (b :: rest).length) 0) ::
          (segLoopAux resp cancel ((b :: rest).drop 7) (1 - t) (s + 1)).2) := by
  rw [segLoopAux]
  simp [hc, hr, h80, hE0, htog, List.length_take]
  have e : 6 - 6 ⊓ rest.length = 7 - 7 ⊓ (rest.length + 1) := by omega
  rw [e]
  exact ⟨rfl, rfl⟩

/-- A failing guard ends the loop with a non-`ok` result. -/
theorem segLoopAux_fail (resp : Nat → Option (List Nat)) (cancel : Nat → Bool)
    (b : Nat) (rest : List Nat) (t s : Nat)
    (hok : (segLoopAux resp cancel (b :: rest) t s).1 = DlResult.ok) :
    cancel s = false ∧ ∃ rd, resp s = some rd ∧ byteAt rd 0 ≠ 0x80 ∧
      byteAt rd 0 &&& 0xE0 = 0x20 ∧ (byteAt rd 0 >>> 4) % 2 = t := by
  rw [segLoopAux] at hok
  by_cases hc : cancel s = true
  · simp [hc] at hok
  · have hc2 : cancel s = false := by
      cases h : cancel s
      · rfl
      · exact absurd h hc
    refine ⟨hc2, ?_⟩
    cases hr : resp s with
    | none => simp [hc2, hr] at hok
    | some rd =>
      by_cases h80 : byteAt rd 0 = 0x80
      · simp [hc2, hr, h80] at hok
      · by_cases hE0 : byteAt rd 0 &&& 0xE0 = 0x20
        · by_cases htog : (byteAt rd 0 >>> 4) % 2 = t
          · exact ⟨rd, rfl, h80, hE0, htog⟩
          · simp [hc2, hr, h80, hE0, htog] at hok
        · simp [hc2, hr, h80, hE0] at hok

/-- Shape of a successful run of the segment loop, from any residual
payload, toggle value in `{0, 1}` and segment counter: the frames sent
number `ceil(length / 7)` and the `i`-th command byte carries toggle
`(t + i) mod 2`, the last-segment bit, and the unused-byte count. -/
theorem segLoopAux_ok (resp : Nat → Option (List Nat)) (cancel : Nat → Bool) :
    ∀ (n : Nat) (d : List Nat), d.length ≤ n → ∀ (t s : Nat), t ≤ 1 →
      (segLoopAux resp cancel d t s).1 = DlResult.ok →
      (segLoopAux resp cancel d t s).2.length = (d.length + 6) / 7
      ∧ ∀ i, i < (segLoopAux resp cancel d t s).2.length →
          ((segLoopAux resp cancel d t s).2.getD i (0, [])).1 =
            ((((t + i) % 2) <<< 4) ||| (if d.length ≤ 7 * (i + 1) then 1 else 0)) |||
              ((7 - min 7 (d.length - 7 * i)) <<< 1) := by
  intro n
  induction n with
  | zero =>
    intro d hlen t s ht hok
    have hd : d = [] := List.length_eq_zero.mp (Nat.le_zero.mp hlen)
    subst hd
    constructor
    · simp [segLoopAux]
    · intro i hi
      simp [segLoopAux] at hi
  | succ n ih =>
    intro d hlen t s ht hok
    cases d with
    | nil =>
      constructor
      · simp [segLoopAux]
      · intro i hi
        simp [segLoopAux] at hi
    | cons b rest =>
      obtain ⟨hc, rd, hr, h80, hE0, htog⟩ := segLoopAux_fail resp cancel b rest t s hok
      have hstep := segLoopAux_cons resp cancel b rest t s hc rd hr h80 hE0 htog
      rw [hstep] at hok ⊢
      have hlen7 : ((b :: rest).drop 7).length = (b :: rest).length - 7 :=
        List.length_drop 7 _
      have hlen2 : ((b :: rest).drop 7).length ≤ n := by
        simp at hlen
        simp [hlen7]
        omega
      have ht2 : 1 - t ≤ 1 := by omega
      obtain ⟨ihlen, ihidx⟩ := ih _ hlen2 (1 - t) (s + 1) ht2 hok
      constructor
      · simp only [List.length_cons, ihlen, hlen7]
        have hl : 0 < (b :: rest).length := by simp
        omega
      · intro i hi
        cases i with
        | zero =>
          rw [List.getD_cons_zero]
          have e1 : (t + 0) % 2 = t := by omega
          have e2 : (b :: rest).length - 7 * 0 = (b :: rest).length := by omega
          have e3 : 7 * (0 + 1) = 7 := by omega
          rw [e1, e2, e3]
        | succ i =>
          rw [List.getD_cons_succ]
          rw [List.length_cons] at hi
          have hi2 : i < (segLoopAux resp cancel ((b :: rest).drop 7) (1 - t) (s + 1)).2.length :=
            Nat.lt_of_succ_lt_succ hi
          have hform := ihidx i hi2
          have hbig : 8 ≤ (b :: rest).length := by
            have h := hi2
            rw [ihlen, hlen7] at h
            have hlc : (b :: rest).length = rest.length + 1 := List.length_cons b rest
            omega
          have e1 : (1 - t + i) % 2 = (t + (i + 1)) % 2 := by omega
          have e2 : ((b :: rest).drop 7).length - 7 * i
              = (b :: rest).length - 7 * (i + 1) := by
            rw [hlen7]; omega
          have e3 : (((b :: rest).drop 7).length ≤ 7 * (i + 1))
              ↔ ((b :: rest).length ≤ 7 * (i + 1 + 1)) := by
            rw [hlen7]; omega
          rw [hform, e1, e2]
          simp only [e3]

/-- Claim C2: for every payload of length `L > 0`, a successful segmented
download sends exactly `ceil(L/7)` segment frames; the `i`-th segment
(counting from 0, carrying `len = min 7 (L - 7i)` bytes) has command byte
`(i mod 2) <<< 4`, OR-ed with 1 iff it is the last segment, OR-ed with
`(7 - len) <<< 1`; the final segment's command byte has bit 0 set and bits
1-3 equal to `(7 - L mod 7) mod 7`; and a 10-byte payload yields exactly
the two command bytes `0x00` then `0x19`. -/
theorem claim_C2 (data : List Nat) (resp : Nat → Option (List Nat))
    (cancel : Nat → Bool) (hpos : 0 < data.length)
    (hok : (segLoop resp cancel data).1 = DlResult.ok) :
    (segLoop resp cancel data).2.length = (data.length + 6) / 7
    ∧ (∀ i, i < (segLoop resp cancel data).2.length →
        ((segLoop resp cancel data).2.getD i (0, [])).1 =
          (((i % 2) <<< 4) |||
              (if i + 1 = (data.length + 6) / 7 then 1 else 0)) |||
            ((7 - min 7 (data.length - 7 * i)) <<< 1))
    ∧ ((segLoop resp cancel data).2.getD ((segLoop resp cancel data).2.length - 1)
        (0, [])).1 &&& 1 = 1
    ∧ (((segLoop resp cancel data).2.getD ((segLoop resp cancel data).2.length - 1)
        (0, [])).1 >>> 1) &&& 7 = (7 - data.length % 7) % 7
    ∧ (data.length = 10 →
        (segLoop resp cancel data).2.map Prod.fst = [0x00, 0x19]) := by
  simp only [segLoop] at hok ⊢
  obtain ⟨hlen, hidx⟩ :=
    segLoopAux_ok resp cancel data.length data le_rfl 0 0 (by omega) hok
  have hidx2 : ∀ i, i < (segLoopAux resp cancel data 0 0).2.length →
      ((segLoopAux resp cancel data 0 0).2.getD i (0, [])).1 =
        (((i % 2) <<< 4) ||| (if i + 1 = (data.length + 6) / 7 then 1 else 0)) |||
          ((7 - min 7 (data.length - 7 * i)) <<< 1) := by
    intro i hi
    have h := hidx i hi
    have hin : i < (data.length + 6) / 7 := by rw [← hlen]; exact hi
    have e0 : (0 + i) % 2 = i % 2 := by omega
    have e1 : (data.length ≤ 7 * (i + 1)) ↔ (i + 1 = (data.length + 6) / 7) := by
      omega
    rw [e0] at h
    rw [h]
    simp only [e1]
  have hlast : (segLoopAux resp cancel data 0 0).2.length - 1
      < (segLoopAux resp cancel data 0 0).2.length := by
    rw [hlen]
    omega
  have hcmd := hidx2 _ hlast
  set L := data.length with hL
  set nseg := (segLoopAux resp cancel data 0 0).2.length with hn
  have hnval : nseg = (L + 6) / 7 := hlen
  have hlstlen : min 7 (L - 7 * (nseg - 1)) = L - 7 * (nseg - 1) := by
    rw [hnval]
    have : L ≤ 7 * ((L + 6) / 7) := by omega
    omega
  have hm1 : 1 ≤ L - 7 * (nseg - 1) := by
    rw [hnval]
    omega
  have hiftrue : (nseg - 1 + 1 = (L + 6) / 7) := by
    rw [← hnval]
    omega
  have hcmd2 : ((segLoopAux resp cancel data 0 0).2.getD (nseg - 1) (0, [])).1
      = 16 * ((nseg - 1) % 2) + 1 + 2 * (7 - (L - 7 * (nseg - 1))) := by
    rw [hcmd, hlstlen, if_pos hiftrue]
    exact cmd_eq_arith _ (by omega) 1 (by omega) _ (by omega)
  refine ⟨hlen, hidx2, ?_, ?_, ?_⟩
  · rw [hcmd2, Nat.and_one_is_mod]
    omega
  · rw [hcmd2]
    have hdiv : (16 * ((nseg - 1) % 2) + 1 + 2 * (7 - (L - 7 * (nseg - 1)))) >>> 1
        = (16 * ((nseg - 1) % 2) + 1 + 2 * (7 - (L - 7 * (nseg - 1)))) / 2 := by
      have h := Nat.shiftRight_eq_div_pow
        (16 * ((nseg - 1) % 2) + 1 + 2 * (7 - (L - 7 * (nseg - 1)))) 1
      norm_num at h
      exact h
    rw [hdiv, and_7_eq_mod]
    rw [hnval]
    omega
  · intro h10
    have hn2 : nseg = 2 := by rw [hnval, h10]
    have h0 := hidx2 0 (by omega)
    have h1 := hidx2 1 (by omega)
    rw [h10] at h0 h1
    have hv0 : (((0 % 2) <<< 4) ||| (if 0 + 1 = (10 + 6) / 7 then 1 else 0)) |||
        ((7 - min 7 (10 - 7 * 0)) <<< 1) = 0 := by decide
    have hv1 : (((1 % 2) <<< 4) ||| (if 1 + 1 = (10 + 6) / 7 then 1 else 0)) |||
        ((7 - min 7 (10 - 7 * 1)) <<< 1) = 25 := by decide
    rw [hv0] at h0
    rw [hv1] at h1
    rcases hfr : (segLoopAux resp cancel data 0 0).2 with _ | ⟨a, _ | ⟨c, tl⟩⟩
    · rw [hfr] at hn; simp at hn; omega
    · rw [hfr] at hn; simp at hn; omega
    · have hlen0 : tl.length = 0 := by
        rw [hfr] at hn
        simp at hn
        omega
      have htl := List.length_eq_zero.mp hlen0
      subst htl
      rw [hfr] at h0 h1
      simp only [List.getD_cons_zero, List.getD_cons_succ] at h0 h1
      simp [h0, h1]

/-- Witness for C2: a 10-byte payload with correct acknowledgments. -/
theorem claim_C2_witness :
    0 < (List.replicate 10 3 : List Nat).length
    ∧ (segLoop (fun i => some [if i % 2 = 0 then 0x20 else 0x30, 0, 0, 0, 0, 0, 0, 0])
        (fun _ => false) (List.replicate 10 3)).1 = DlResult.ok
    ∧ (segLoop (fun i => some [if i % 2 = 0 then 0x20 else 0x30, 0, 0, 0, 0, 0, 0, 0])
        (fun _ => false) (List.replicate 10 3)).2.map Prod.fst = [0x00, 0x19] := by
  have hok : (segLoop (fun i => some [if i % 2 = 0 then 0x20 else 0x30, 0, 0, 0, 0, 0, 0, 0])
      (fun _ => false) (List.replicate 10 3)).1 = DlResult.ok := by
    simp [segLoop, segLoopAux, byteAt]
    decide
  exact ⟨by decide, hok,
    (claim_C2 (List.replicate 10 3) _ _ (by decide) hok).2.2.2.2 (by decide)⟩

/-! ## Claim C1: codec round trip — hex formatting/parsing lemmas -/

/-- Parsing inverts formatting on single hex digits. -/
theorem hexDigitVal_hexDig : ∀ d < 16, hexDigitVal (hexDig d) = some d := by decide

/-- Formatted hex digits are never a newline. -/
theorem hexDig_ne_nl : ∀ d < 16, hexDig d ≠ '\n' := by decide

/-- Parsing inverts two-digit formatting of a byte. -/
theorem parseHex_hex2 (n : Nat) (h : n < 256) : parseHex (hex2 n) = some n := by
  have h1 : n / 16 < 16 := by omega
  have h2 : n % 16 < 16 := by omega
  simp [parseHex, hex2, parseHexAux, hexDigitVal_hexDig _ h1, hexDigitVal_hexDig _ h2]
  omega

/-- Parsing inverts four-digit formatting of a 16-bit value. -/
theorem parseHex_hex4 (n : Nat) (h : n < 65536) : parseHex (hex4 n) = some n := by
  have h1 : n / 4096 < 16 := by omega
  have h2 : n / 256 % 16 < 16 := by omega
  have h3 : n / 16 % 16 < 16 := by omega
  have h4 : n % 16 < 16 := by omega
  simp [parseHex, hex4, parseHexAux, hexDigitVal_hexDig _ h1, hexDigitVal_hexDig _ h2,
    hexDigitVal_hexDig _ h3, hexDigitVal_hexDig _ h4]
  omega

/-- Parsing two concatenated formatted bytes yields their big-endian value
(the ELA record's 16-bit payload). -/
theorem parseHex_hex2_append (a b : Nat) (ha : a < 256) (hb : b < 256) :
    parseHex (hex2 a ++ hex2 b) = some (a * 256 + b) := by
  have h1 : a / 16 < 16 := by omega
  have h2 : a % 16 < 16 := by omega
  have h3 : b / 16 < 16 := by omega
  have h4 : b % 16 < 16 := by omega
  simp [parseHex, hex2, parseHexAux, hexDigitVal_hexDig _ h1, hexDigitVal_hexDig _ h2,
    hexDigitVal_hexDig _ h3, hexDigitVal_hexDig _ h4]
  omega

/-! Slicing a serialized record line. -/

/-- Record lines start with the record marker. -/
theorem recordLine_head (r : HexRecord) : (recordLine r).head? = some ':' := rfl

/-- The byte-count field. -/
theorem slice_count (r : HexRecord) : slice (recordLine r) 1 3 = hex2 r.count := by
  simp [recordLine, slice, hex2, hex4]

/-- The address field. -/
theorem slice_address (r : HexRecord) : slice (recordLine r) 3 7 = hex4 r.address := by
  simp [recordLine, slice, hex2, hex4]

/-- The record-type field. -/
theorem slice_rtype (r : HexRecord) : slice (recordLine r) 7 9 = hex2 r.rtype := by
  simp [recordLine, slice, hex2, hex4]

/-- Everything after the fixed 9-character prefix: data bytes and checksum. -/
theorem recordLine_drop9 (r : HexRecord) :
    (recordLine r).drop 9 = (r.data.map hex2).flatten ++ hex2 r.checksum := by
  simp [recordLine, hex2, hex4]

/-- Dropping `2i` characters inside the concatenated data-byte rendering
exposes the rendering of byte `i`. -/
theorem flatten_hex2_drop : ∀ (ds : List Nat) (i : Nat) (tail : List Char),
    i < ds.length →
    (((ds.map hex2).flatten ++ tail).drop (2 * i))
      = hex2 (ds.getD i 0) ++ ((((ds.drop (i + 1)).map hex2).flatten) ++ tail) := by
  intro ds
  induction ds with
  | nil => intro i tail h; simp at h
  | cons d ds2 ih =>
    intro i tail h
    cases i with
    | zero => simp [hex2]
    | succ i =>
      have h2 : i < ds2.length := by simp at h; omega
      have e : 2 * (i + 1) = 2 * i + 2 := by omega
      rw [e]
      simp only [List.map_cons, List.flatten_cons, hex2]
      rw [List.cons_append, List.cons_append]
      simp only [List.drop_succ_cons]
      have := ih i tail h2
      simpa [hex2] using this

/-- The slice that the parser's byte loop reads for byte `i` is exactly the
two-character rendering of data byte `i`. -/
theorem slice_data_byte (r : HexRecord) (i : Nat) (h : i < r.data.length) :
    slice (recordLine r) (9 + 2 * i) (11 + 2 * i) = hex2 (r.data.getD i 0) := by
  have hdd : (recordLine r).drop (9 + 2 * i) = ((recordLine r).drop 9).drop (2 * i) := by
    rw [List.drop_drop, Nat.add_comm]
  have hd : (recordLine r).drop (9 + 2 * i)
      = hex2 (r.data.getD i 0) ++ ((((r.data.drop (i + 1)).map hex2).flatten) ++ hex2 r.checksum) := by
    rw [hdd, recordLine_drop9]
    exact flatten_hex2_drop r.data i (hex2 r.checksum) h
  unfold slice
  rw [hd]
  have e2 : 11 + 2 * i - (9 + 2 * i) = 2 := by omega
  rw [e2]
  simp [hex2]

/-! The parser's byte-writing loop on well-formed record lines. -/

/-- Setting the element right after a prefix. -/
theorem set_len_append : ∀ (l1 : List Nat) (x : Nat) (l2 : List Nat) (v : Nat),
    (l1 ++ x :: l2).set l1.length v = l1 ++ v :: l2 := by
  intro l1
  induction l1 with
  | nil => intro x l2 v; rfl
  | cons a l1 ih => intro x l2 v; simp [List.set, ih]

/-- Taking one more element appends the element at the boundary. -/
theorem take_succ_getD : ∀ (ds : List Nat) (i : Nat), i < ds.length →
    ds.take (i + 1) = ds.take i ++ [ds.getD i 0] := by
  intro ds
  induction ds with
  | nil => intro i h; simp at h
  | cons d t ih =>
    intro i h
    cases i with
    | zero => simp
    | succ i =>
      have h2 : i < t.length := by simp at h; omega
      simp [List.take_succ_cons, ih i h2]

/-- The byte loop never touches positions strictly below the record's
offset. -/
theorem writeBytes_untouched (line : List Char) (off : Int) (bc : Nat) :
    ∀ (k i : Nat) (d : List Nat) (j : Nat), k = bc - i → (j : Int) < off →
      (writeBytes line off bc i d)[j]? = d[j]? := by
  intro k
  induction k with
  | zero =>
    intro i d j hk hj
    rw [writeBytes]
    have : ¬ i < bc := by omega
    simp [this]
  | succ k ih =>
    intro i d j hk hj
    rw [writeBytes]
    by_cases hi : i < bc
    · rw [if_pos hi]
      cases hp : parseHex (slice line (9 + 2 * i) (11 + 2 * i)) with
      | none => simp only [hp]
      | some v =>
        simp only [hp]
        cases hs : pySet d (off + (i : Int)) v with
        | none => simp only [hs]
        | some d2 =>
          simp only [hs]
          have hrec := ih (i + 1) d2 j (by omega) hj
          rw [hrec]
          have hnn : (0 : Int) ≤ off + (i : Int) := by
            have : (0 : Int) ≤ (j : Int) := Int.ofNat_nonneg j
            omega
          unfold pySet at hs
          rw [if_pos hnn] at hs
          by_cases hin : off + (i : Int) < (d.length : Int)
          · rw [if_pos hin] at hs
            have hd2 : d2 = d.set (off + (i : Int)).toNat v := by
              injection hs with h
              exact h.symm
            subst hd2
            apply List.getElem?_set_ne
            omega
          · rw [if_neg hin] at hs
            exact absurd hs (by simp)
    · simp [hi]

/-- On a record line whose byte slices render `ds`, the byte loop started at
the end of `pre` turns the `0xFF` padding into `ds`. -/
theorem writeBytes_fills (line : List Char) (ds : List Nat) (pre : List Nat)
    (hsl : ∀ i, i < ds.length → parseHex (slice line (9 + 2 * i) (11 + 2 * i))
      = some (ds.getD i 0)) :
    ∀ (k i : Nat), k = ds.length - i → i ≤ ds.length →
      writeBytes line (pre.length : Int) ds.length i
        (pre ++ (ds.take i ++ List.replicate (ds.length - i) 0xFF)) = pre ++ ds := by
  intro k
  induction k with
  | zero =>
    intro i hk hi
    have hieq : i = ds.length := by omega
    subst hieq
    rw [writeBytes]
    simp
  | succ k ih =>
    intro i hk hi
    have hilt : i < ds.length := by omega
    have hrepl : List.replicate (ds.length - i) 0xFF
        = 0xFF :: List.replicate (ds.length - i - 1) 0xFF := by
      obtain ⟨m, hm⟩ : ∃ m, ds.length - i = m + 1 := ⟨ds.length - i - 1, by omega⟩
      rw [hm, List.replicate_succ]
      simp
    have hassoc : pre ++ (ds.take i ++ List.replicate (ds.length - i) 0xFF)
        = (pre ++ ds.take i) ++ (0xFF :: List.replicate (ds.length - i - 1) 0xFF) := by
      rw [hrepl, List.append_assoc]
    have hplen : (pre ++ ds.take i).length = pre.length + i := by
      simp [List.length_take]
      omega
    have hset : pySet (pre ++ (ds.take i ++ List.replicate (ds.length - i) 0xFF))
        ((pre.length : Int) + (i : Int)) (ds.getD i 0)
        = some (pre ++ (ds.take (i + 1) ++ List.replicate (ds.length - (i + 1)) 0xFF)) := by
      unfold pySet
      have hnn : (0 : Int) ≤ (pre.length : Int) + (i : Int) := by omega
      have hlen : (pre ++ (ds.take i ++ List.replicate (ds.length - i) 0xFF)).length
          = pre.length + ds.length := by
        simp [List.length_take]
        omega
      have hin : (pre.length : Int) + (i : Int)
          < ((pre ++ (ds.take i ++ List.replicate (ds.length - i) 0xFF)).length : Int) := by
        rw [hlen]
        push_cast
        omega
      rw [if_pos hnn, if_pos hin]
      congr 1
      have htn : ((pre.length : Int) + (i : Int)).toNat = (pre ++ ds.take i).length := by
        rw [hplen]
        omega
      rw [htn, hassoc, set_len_append]
      rw [take_succ_getD ds i hilt]
      have e2 : ds.length - i - 1 = ds.length - (i + 1) := by omega
      rw [e2]
      simp [List.append_assoc]
    rw [writeBytes, if_pos hilt]
    simp only [hsl i hilt]
    simp only [hset]
    exact ih (i + 1) (by omega) (by omega)

/-! Per-record behaviour of the parser's line processor. -/

/-- Parsing the byte-count field of a serialized record. -/
theorem parse_count (r : HexRecord) (h : r.count < 256) :
    parseHex (slice (recordLine r) 1 3) = some r.count := by
  rw [slice_count]
  exact parseHex_hex2 _ h

/-- Parsing the address field of a serialized record. -/
theorem parse_address (r : HexRecord) (h : r.address < 65536) :
    parseHex (slice (recordLine r) 3 7) = some r.address := by
  rw [slice_address]
  exact parseHex_hex4 _ h

/-- Parsing the record-type field of a serialized record. -/
theorem parse_rtype (r : HexRecord) (h : r.rtype < 256) :
    parseHex (slice (recordLine r) 7 9) = some r.rtype := by
  rw [slice_rtype]
  exact parseHex_hex2 _ h

/-- Processing a serialized ExtendedLinearAddress record sets the extended
address to the record's 16-bit payload shifted left 16 bits. -/
theorem processLine_ela (st : PState) (u : Nat) (hu : u < 65536) :
    processLine st (recordLine (elaRecord u)) = { st with extendedAddr := u <<< 16 } := by
  have ha : u >>> 8 < 256 := by rw [shiftRight_8_eq_div]; omega
  have hb : u &&& 0xFF < 256 := by rw [and_255_eq_mod]; omega
  have h1 : parseHex (slice (recordLine (elaRecord u)) 1 3) = some 2 :=
    parse_count (elaRecord u) (by norm_num [elaRecord])
  have h2 : parseHex (slice (recordLine (elaRecord u)) 3 7) = some 0 :=
    parse_address (elaRecord u) (by norm_num [elaRecord])
  have h3 : parseHex (slice (recordLine (elaRecord u)) 7 9) = some 4 :=
    parse_rtype (elaRecord u) (by norm_num [elaRecord])
  have h9 : parseHex (slice (recordLine (elaRecord u)) 9 13) = some u := by
    unfold slice
    rw [show (13 : Nat) - 9 = 4 from rfl, recordLine_drop9]
    have ht : List.take 4 ((((elaRecord u).data.map hex2).flatten)
        ++ hex2 (elaRecord u).checksum) = hex2 (u >>> 8) ++ hex2 (u &&& 0xFF) := by
      show List.take 4 ((([u >>> 8, u &&& 0xFF].map hex2).flatten)
        ++ hex2 (elaRecord u).checksum) = hex2 (u >>> 8) ++ hex2 (u &&& 0xFF)
      simp [hex2]
    rw [ht, parseHex_hex2_append _ _ ha hb]
    congr 1
    rw [shiftRight_8_eq_div, and_255_eq_mod]
    omega
  unfold processLine
  rw [if_pos (recordLine_head _)]
  simp only [h1, h2, h3, h9]
  norm_num

/-- Processing a serialized record whose type is neither 0 nor 4 (here:
StartLinearAddress and EndOfFile records) leaves the state unchanged. -/
theorem processLine_skip (st : PState) (r : HexRecord) (hc : r.count < 256)
    (ha : r.address < 65536) (hrt : r.rtype < 256) (h4 : r.rtype ≠ 4)
    (h0 : r.rtype ≠ 0) :
    processLine st (recordLine r) = st := by
  unfold processLine
  rw [if_pos (recordLine_head _)]
  simp only [parse_count r hc, parse_address r ha, parse_rtype r hrt]
  simp [h4, h0]

/-- Unfolding of the data-record branch of the line processor. -/
theorem processLine_data_unfold (st : PState) (ds : List Nat) (a : Nat)
    (hlen : ds.length < 256) (ha : a < 65536) :
    processLine st (recordLine (dataRecord ds a)) =
      ⟨writeBytes (recordLine (dataRecord ds a))
          (((st.extendedAddr + a : Nat) : Int)
            - ((st.baseAddress.getD (st.extendedAddr + a) : Nat) : Int))
          ds.length 0
          (if (st.data.length : Int) <
              ((st.extendedAddr + a : Nat) : Int)
                - ((st.baseAddress.getD (st.extendedAddr + a) : Nat) : Int)
                + (ds.length : Int) then
            st.data ++ List.replicate
              ((((st.extendedAddr + a : Nat) : Int)
                - ((st.baseAddress.getD (st.extendedAddr + a) : Nat) : Int)
                + (ds.length : Int) - (st.data.length : Int)).toNat) 0xFF
          else st.data),
        st.extendedAddr, some (st.baseAddress.getD (st.extendedAddr + a))⟩ := by
  have h1 : parseHex (slice (recordLine (dataRecord ds a)) 1 3) = some ds.length :=
    parse_count (dataRecord ds a) (by simpa [dataRecord] using hlen)
  have h2 : parseHex (slice (recordLine (dataRecord ds a)) 3 7) = some a :=
    parse_address (dataRecord ds a) (by simpa [dataRecord] using ha)
  have h3 : parseHex (slice (recordLine (dataRecord ds a)) 7 9) = some 0 :=
    parse_rtype (dataRecord ds a) (by norm_num [dataRecord])
  unfold processLine
  rw [if_pos (recordLine_head _)]
  simp only [h1, h2, h3]
  simp

/-- Processing a serialized data record whose load address continues exactly
at the end of the already-reconstructed bytes appends the record's bytes. -/
theorem processLine_data (st : PState) (ds : List Nat) (a : Nat)
    (hne : ds ≠ []) (hlen : ds.length < 256) (ha : a < 65536)
    (hbytes : ∀ x ∈ ds, x < 256)
    (hoff : st.extendedAddr + a
      = st.baseAddress.getD (st.extendedAddr + a) + st.data.length) :
    processLine st (recordLine (dataRecord ds a))
      = ⟨st.data ++ ds, st.extendedAddr,
          some (st.baseAddress.getD (st.extendedAddr + a))⟩ := by
  rw [processLine_data_unfold st ds a hlen ha]
  have hdspos : 0 < ds.length := List.length_pos.mpr hne
  have hoffI : ((st.extendedAddr + a : Nat) : Int)
      - ((st.baseAddress.getD (st.extendedAddr + a) : Nat) : Int)
      = (st.data.length : Int) := by omega
  rw [hoffI]
  have hcond : (st.data.length : Int) < (st.data.length : Int) + (ds.length : Int) := by
    omega
  rw [if_pos hcond]
  have hcount : ((st.data.length : Int) + (ds.length : Int)
      - (st.data.length : Int)).toNat = ds.length := by omega
  rw [hcount]
  have hsl : ∀ i, i < ds.length →
      parseHex (slice (recordLine (dataRecord ds a)) (9 + 2 * i) (11 + 2 * i))
        = some (ds.getD i 0) := by
    intro i hi
    have hslice := slice_data_byte (dataRecord ds a) i (by simpa [dataRecord] using hi)
    have hby : (dataRecord ds a).data.getD i 0 = ds.getD i 0 := rfl
    rw [hslice, hby]
    exact parseHex_hex2 _ (hbytes _ (getD_mem_of_lt ds i hi))
  have hfill := writeBytes_fills (recordLine (dataRecord ds a)) ds st.data hsl
    ds.length 0 (by omega) (by omega)
  simp only [List.take_zero, Nat.sub_zero, List.nil_append] at hfill
  rw [hfill]

/-- Processing a serialized data record that starts past the end of the
already-reconstructed bytes fills the whole gap with `0xFF` (the
erased-flash convention) before writing the record's own bytes. -/
theorem processLine_data_gap (st : PState) (bv : Nat) (ds : List Nat) (a : Nat)
    (hbase : st.baseAddress = some bv)
    (hne : ds ≠ []) (hlen : ds.length < 256) (ha : a < 65536)
    (hgap : bv + st.data.length ≤ st.extendedAddr + a) :
    ∀ j, st.data.length ≤ j →
      (j : Int) < ((st.extendedAddr + a : Nat) : Int) - (bv : Int) →
      (processLine st (recordLine (dataRecord ds a))).data[j]? = some 0xFF := by
  intro j hj1 hj2
  have hdspos : 0 < ds.length := List.length_pos.mpr hne
  rw [processLine_data_unfold st ds a hlen ha]
  simp only [hbase, Option.getD_some]
  have hcond : (st.data.length : Int) <
      ((st.extendedAddr + a : Nat) : Int) - (bv : Int) + (ds.length : Int) := by
    push_cast
    omega
  rw [if_pos hcond]
  have huntouched := writeBytes_untouched (recordLine (dataRecord ds a))
    (((st.extendedAddr + a : Nat) : Int) - (bv : Int)) ds.length ds.length 0
    (st.data ++ List.replicate
      ((((st.extendedAddr + a : Nat) : Int) - (bv : Int)
        + (ds.length : Int) - (st.data.length : Int)).toNat) 0xFF)
    j (by omega) hj2
  rw [huntouched]
  rw [List.getElem?_append_right hj1]
  apply List.getElem?_replicate_of_lt
  push_cast at hj2 hcond ⊢
  omega

/-- Processing a serialized data record whose load address lies far below
the established base (a negative offset beyond the bytearray's length)
changes nothing: the assignment raises `IndexError`, which the parser's
`except` swallows, skipping the line. -/
theorem processLine_data_oob (st : PState) (bv : Nat) (ds : List Nat) (a : Nat)
    (hbase : st.baseAddress = some bv)
    (hlen : ds.length < 256) (ha : a < 65536)
    (hno_ext : ((st.extendedAddr + a : Nat) : Int) - (bv : Int) + (ds.length : Int)
      ≤ (st.data.length : Int))
    (hoob : ((st.extendedAddr + a : Nat) : Int) - (bv : Int)
      < -(st.data.length : Int)) :
    processLine st (recordLine (dataRecord ds a))
      = ⟨st.data, st.extendedAddr, some bv⟩ := by
  rw [processLine_data_unfold st ds a hlen ha]
  simp only [hbase, Option.getD_some]
  rw [if_neg (by omega)]
  have hwb : writeBytes (recordLine (dataRecord ds a))
      (((st.extendedAddr + a : Nat) : Int) - (bv : Int)) ds.length 0 st.data
      = st.data := by
    rw [writeBytes]
    by_cases hpos : 0 < ds.length
    · rw [if_pos hpos]
      cases hp : parseHex (slice (recordLine (dataRecord ds a)) (9 + 2 * 0) (11 + 2 * 0)) with
      | none => simp only [hp]
      | some v =>
        simp only [hp]
        have hps : pySet st.data
            (((st.extendedAddr + a : Nat) : Int) - (bv : Int) + ((0 : Nat) : Int)) v
            = none := by
          unfold pySet
          rw [if_neg (by push_cast; omega), if_neg (by push_cast; omega)]
        simp only [hps]
    · rw [if_neg hpos]
  rw [hwb]

/-! Splitting the encoder's output back into lines. -/

/-- A newline-free prefix is consumed whole by `takeWhile`. -/
theorem takeWhile_append_nl (rest : List Char) :
    ∀ l : List Char, (∀ c ∈ l, c ≠ '\n') →
      (l ++ '\n' :: rest).takeWhile (· ≠ '\n') = l := by
  intro l
  induction l with
  | nil => simp [List.takeWhile]
  | cons c l ih =>
    intro h
    have hc : c ≠ '\n' := h c (List.mem_cons_self _ _)
    rw [List.cons_append, List.takeWhile_cons, if_pos (by simp [hc]),
      ih (fun x hx => h x (List.mem_cons_of_mem _ hx))]

/-- `dropWhile` stops exactly at the newline terminating a line. -/
theorem dropWhile_append_nl (rest : List Char) :
    ∀ l : List Char, (∀ c ∈ l, c ≠ '\n') →
      (l ++ '\n' :: rest).dropWhile (· ≠ '\n') = '\n' :: rest := by
  intro l
  induction l with
  | nil => simp [List.dropWhile]
  | cons c l ih =>
    intro h
    have hc : c ≠ '\n' := h c (List.mem_cons_self _ _)
    rw [List.cons_append, List.dropWhile_cons, if_pos (by simp [hc])]
    exact ih (fun x hx => h x (List.mem_cons_of_mem _ hx))

/-- One newline-terminated line splits off the front of the text. -/
theorem splitLines_append (l rest : List Char) (h : ∀ c ∈ l, c ≠ '\n') :
    splitLines (l ++ '\n' :: rest) = l :: splitLines rest := by
  cases l with
  | nil =>
    rw [List.nil_append, splitLines]
    simp [List.takeWhile, List.dropWhile]
  | cons c l2 =>
    rw [List.cons_append, splitLines, ← List.cons_append,
      takeWhile_append_nl rest (c :: l2) h, dropWhile_append_nl rest (c :: l2) h]
    simp

/-- Parsing the concatenation of newline-terminated record lines is the fold
of the line processor over the records. -/
theorem foldl_splitLines :
    ∀ (recs : List HexRecord), (∀ r ∈ recs, ∀ c ∈ recordLine r, c ≠ '\n') →
    ∀ (st : PState),
      (splitLines ((recs.map (fun r => recordLine r ++ ['\n'])).flatten)).foldl processLine st
        = recs.foldl (fun s r => processLine s (recordLine r)) st := by
  intro recs
  induction recs with
  | nil =>
    intro _ st
    simp [splitLines]
  | cons r rs ih =>
    intro h st
    simp only [List.map_cons, List.flatten_cons]
    have hline : (recordLine r ++ ['\n']) ++ ((rs.map (fun r => recordLine r ++ ['\n'])).flatten)
        = recordLine r ++ ('\n' :: ((rs.map (fun r => recordLine r ++ ['\n'])).flatten)) := by
      simp
    rw [hline, splitLines_append _ _ (h r (List.mem_cons_self _ _))]
    rw [List.foldl_cons, List.foldl_cons]
    exact ih (fun x hx => h x (List.mem_cons_of_mem _ hx)) _

/-- The checksum byte is always below 256. -/
theorem neg8_lt (s : Nat) : neg8 s < 256 := by
  unfold neg8
  omega

/-- Characters of a formatted byte are never a newline. -/
theorem mem_hex2_ne_nl (x : Nat) (hx : x < 256) : ∀ c ∈ hex2 x, c ≠ '\n' := by
  intro c hc
  simp only [hex2, List.mem_cons, List.not_mem_nil, or_false] at hc
  rcases hc with h | h <;> subst h
  · exact hexDig_ne_nl _ (by omega)
  · exact hexDig_ne_nl _ (by omega)

/-- Characters of a formatted 16-bit value are never a newline. -/
theorem mem_hex4_ne_nl (x : Nat) (hx : x < 65536) : ∀ c ∈ hex4 x, c ≠ '\n' := by
  intro c hc
  simp only [hex4, List.mem_cons, List.not_mem_nil, or_false] at hc
  rcases hc with h | h | h | h <;> subst h <;> exact hexDig_ne_nl _ (by omega)

/-- Serialized records with in-range fields contain no newline. -/
theorem recordLine_no_nl (r : HexRecord) (hc : r.count < 256) (ha : r.address < 65536)
    (hrt : r.rtype < 256) (hd : ∀ b ∈ r.data, b < 256) (hck : r.checksum < 256) :
    ∀ c ∈ recordLine r, c ≠ '\n' := by
  intro c hcmem
  rcases List.mem_cons.mp hcmem with h | hm
  · subst h; decide
  rcases List.mem_append.mp hm with hm2 | h
  case inr => exact mem_hex2_ne_nl _ hck _ h
  rcases List.mem_append.mp hm2 with hm3 | h
  case inr =>
    rcases List.mem_flatten.mp h with ⟨lc, hlc, hcin⟩
    rcases List.mem_map.mp hlc with ⟨b, hb, hform⟩
    subst hform
    exact mem_hex2_ne_nl _ (hd b hb) _ hcin
  rcases List.mem_append.mp hm3 with hm4 | h
  case inr => exact mem_hex2_ne_nl _ hrt _ h
  rcases List.mem_append.mp hm4 with h | h
  · exact mem_hex2_ne_nl _ hc _ h
  · exact mem_hex4_ne_nl _ ha _ h

/-- Recomposition of a 32-bit address from its upper and lower 16 bits. -/
theorem recompose (x : Nat) (hx : x < 4294967296) :
    (((x >>> 16) &&& 0xFFFF) <<< 16) + (x &&& 0xFFFF) = x := by
  rw [shiftRight_16_eq_div, and_65535_eq_mod, and_65535_eq_mod, Nat.shiftLeft_eq]
  have e : (2 : Nat) ^ 16 = 65536 := by norm_num
  rw [e]
  omega

/-- One step of the encoder's chunk loop. -/
theorem dataRecords_cons (base b : Nat) (rest : List Nat) (offset : Nat)
    (cur : Option Nat) :
    dataRecords base (b :: rest) offset cur =
      (if cur = some (((base + offset) >>> 16) &&& 0xFFFF) then []
       else [elaRecord (((base + offset) >>> 16) &&& 0xFFFF)]) ++
        dataRecord ((b :: rest).take 16) ((base + offset) &&& 0xFFFF) ::
          dataRecords base ((b :: rest).drop 16) (offset + 16)
            (some (((base + offset) >>> 16) &&& 0xFFFF)) := by
  rw [dataRecords]

/-- Folding the line processor over the encoder's data-record stream
reconstructs exactly the encoded bytes: from a consistent parser state, the
resulting bytearray is the old one extended by the remaining binary, and
(when at least one record was processed) the base address is the encoder's
base address. -/
theorem fold_dataRecords (A : Nat) :
    ∀ (n : Nat) (rest : List Nat) (offset : Nat) (cur : Option Nat) (st : PState),
      rest.length ≤ n →
      (∀ x ∈ rest, x < 256) →
      A + offset + rest.length ≤ 4294967296 →
      st.data.length = offset →
      (st.baseAddress = some A ∨ (st.baseAddress = none ∧ offset = 0)) →
      (∀ u, cur = some u → st.extendedAddr = u <<< 16) →
      ((dataRecords A rest offset cur).foldl
          (fun s r => processLine s (recordLine r)) st).data = st.data ++ rest
      ∧ (rest = [] →
          (dataRecords A rest offset cur).foldl
            (fun s r => processLine s (recordLine r)) st = st)
      ∧ (rest ≠ [] →
          ((dataRecords A rest offset cur).foldl
            (fun s r => processLine s (recordLine r)) st).baseAddress = some A) := by
  intro n
  induction n with
  | zero =>
    intro rest offset cur st hlen hbytes hbound hdlen hbase hext
    have hnil : rest = [] := List.length_eq_zero.mp (Nat.le_zero.mp hlen)
    subst hnil
    rw [dataRecords]
    exact ⟨by simp, fun _ => rfl, fun hne => absurd rfl hne⟩
  | succ n ih =>
    intro rest offset cur st hlen hbytes hbound hdlen hbase hext
    cases rest with
    | nil =>
      rw [dataRecords]
      exact ⟨by simp, fun _ => rfl, fun hne => absurd rfl hne⟩
    | cons b rest2 =>
      have hlc : (b :: rest2).length = rest2.length + 1 := List.length_cons b rest2
      have hup : ((A + offset) >>> 16) &&& 0xFFFF < 65536 :=
        Nat.lt_of_le_of_lt Nat.and_le_right (by norm_num)
      have hal : (A + offset) &&& 0xFFFF < 65536 :=
        Nat.lt_of_le_of_lt Nat.and_le_right (by norm_num)
      have hfull : A + offset < 4294967296 := by omega
      have hrec : ((((A + offset) >>> 16) &&& 0xFFFF) <<< 16) + ((A + offset) &&& 0xFFFF)
          = A + offset := recompose (A + offset) hfull
      -- the state after the (possibly absent) ELA record
      have hstep : ∀ st1 : PState,
          st1.data = st.data → st1.baseAddress = st.baseAddress →
          st1.extendedAddr = (((A + offset) >>> 16) &&& 0xFFFF) <<< 16 →
          (processLine st1 (recordLine
              (dataRecord ((b :: rest2).take 16) ((A + offset) &&& 0xFFFF)))).data
              = st.data ++ (b :: rest2).take 16
          ∧ (processLine st1 (recordLine
              (dataRecord ((b :: rest2).take 16) ((A + offset) &&& 0xFFFF)))).extendedAddr
              = (((A + offset) >>> 16) &&& 0xFFFF) <<< 16
          ∧ (processLine st1 (recordLine
              (dataRecord ((b :: rest2).take 16) ((A + offset) &&& 0xFFFF)))).baseAddress
              = some A := by
        intro st1 hd1 hb1 he1
        have hfa : st1.extendedAddr + ((A + offset) &&& 0xFFFF) = A + offset := by
          rw [he1]; exact hrec
        have hbval : st1.baseAddress.getD (st1.extendedAddr + ((A + offset) &&& 0xFFFF))
            = A := by
          rw [hfa, hb1]
          rcases hbase with h | ⟨h, hoff0⟩
          · rw [h]; rfl
          · rw [h]
            subst hoff0
            simp
        have hoffok : st1.extendedAddr + ((A + offset) &&& 0xFFFF)
            = st1.baseAddress.getD (st1.extendedAddr + ((A + offset) &&& 0xFFFF))
              + st1.data.length := by
          rw [hbval, hfa, hd1, hdlen]
        have hdata := processLine_data st1 ((b :: rest2).take 16)
          ((A + offset) &&& 0xFFFF)
          (by simp) (by simp [List.length_take]; omega) hal
          (fun x hx => hbytes x (List.take_subset 16 _ hx)) hoffok
        rw [hdata]
        exact ⟨by rw [hd1], by rw [he1], by rw [hbval]⟩
      -- fold one chunk, then recurse
      have hmain : ∀ st1 : PState,
          st1.data = st.data → st1.baseAddress = st.baseAddress →
          st1.extendedAddr = (((A + offset) >>> 16) &&& 0xFFFF) <<< 16 →
          ((dataRecord ((b :: rest2).take 16) ((A + offset) &&& 0xFFFF) ::
            dataRecords A ((b :: rest2).drop 16) (offset + 16)
              (some (((A + offset) >>> 16) &&& 0xFFFF))).foldl
              (fun s r => processLine s (recordLine r)) st1).data
            = st.data ++ (b :: rest2)
          ∧ ((dataRecord ((b :: rest2).take 16) ((A + offset) &&& 0xFFFF) ::
            dataRecords A ((b :: rest2).drop 16) (offset + 16)
              (some (((A + offset) >>> 16) &&& 0xFFFF))).foldl
              (fun s r => processLine s (recordLine r)) st1).baseAddress
            = some A := by
        intro st1 hd1 hb1 he1
        rw [List.foldl_cons]
        obtain ⟨h2data, h2ext, h2base⟩ := hstep st1 hd1 hb1 he1
        set st2 := processLine st1 (recordLine
          (dataRecord ((b :: rest2).take 16) ((A + offset) &&& 0xFFFF))) with hst2
        by_cases hsz : (b :: rest2).length ≤ 16
        · have hdrop : (b :: rest2).drop 16 = [] := by
            apply List.drop_eq_nil_of_le
            omega
          rw [hdrop, dataRecords]
          have htake : (b :: rest2).take 16 = b :: rest2 :=
            List.take_of_length_le hsz
          rw [List.foldl_nil]
          rw [htake] at h2data
          exact ⟨h2data, h2base⟩
        · have h16 : 16 < (b :: rest2).length := by omega
          have htklen : ((b :: rest2).take 16).length = 16 := by
            simp [List.length_take]
            omega
          have hdplen : ((b :: rest2).drop 16).length = (b :: rest2).length - 16 :=
            List.length_drop 16 _
          obtain ⟨ihdata, _, ihbase⟩ := ih ((b :: rest2).drop 16) (offset + 16)
            (some (((A + offset) >>> 16) &&& 0xFFFF)) st2
            (by omega)
            (fun x hx => hbytes x (List.drop_subset 16 _ hx))
            (by omega)
            (by rw [h2data]; simp [htklen]; omega)
            (Or.inl h2base)
            (fun u hu => by
              injection hu with hu2
              rw [← hu2]
              exact h2ext)
          refine ⟨?_, ?_⟩
          · rw [ihdata, h2data, List.append_assoc, List.take_append_drop]
          · apply ihbase
            intro hd
            rw [hd] at hdplen
            simp at hdplen
            omega
      -- assemble, with or without a leading ELA record
      rw [dataRecords_cons]
      by_cases hcur : cur = some (((A + offset) >>> 16) &&& 0xFFFF)
      · rw [if_pos hcur, List.nil_append]
        have hm := hmain st rfl rfl (hext _ hcur)
        exact ⟨hm.1, fun h => absurd h (by simp), fun _ => hm.2⟩
      · rw [if_neg hcur, List.singleton_append, List.foldl_cons]
        have hela : processLine st (recordLine (elaRecord (((A + offset) >>> 16) &&& 0xFFFF)))
            = { st with extendedAddr := ((((A + offset) >>> 16) &&& 0xFFFF)) <<< 16 } :=
          processLine_ela st _ hup
        rw [hela]
        have hm := hmain
          { st with extendedAddr := ((((A + offset) >>> 16) &&& 0xFFFF)) <<< 16 }
          rfl rfl rfl
        exact ⟨hm.1, fun h => absurd h (by simp), fun _ => hm.2⟩

/-- Right shift by 24 is division by 2^24. -/
theorem shiftRight_24_eq_div (x : Nat) : x >>> 24 = x / 16777216 := by
  have h := Nat.shiftRight_eq_div_pow x 24
  norm_num at h
  exact h

/-- The bytes of a packed 32-bit value are bytes. -/
theorem packBe32_bytes (v : Nat) (hv : v < 4294967296) : ∀ x ∈ packBe32 v, x < 256 := by
  intro x hx
  simp only [packBe32, List.mem_cons, List.not_mem_nil, or_false] at hx
  rcases hx with h | h | h | h <;> subst h
  · rw [shiftRight_24_eq_div]; omega
  · rw [and_255_eq_mod]; omega
  · rw [and_255_eq_mod]; omega
  · rw [and_255_eq_mod]; omega

/-- Shape of the encoder's loop records, with field bounds. -/
theorem dataRecords_shape_strong (base : Nat) :
    ∀ (n : Nat) (l : List Nat) (off : Nat) (cur : Option Nat) (r : HexRecord),
      l.length ≤ n → (∀ x ∈ l, x < 256) → r ∈ dataRecords base l off cur →
      (∃ u, u < 65536 ∧ r = elaRecord u)
      ∨ (∃ c a, (∀ x ∈ c, x < 256) ∧ c.length ≤ 16 ∧ a < 65536 ∧ r = dataRecord c a) := by
  intro n
  induction n with
  | zero =>
    intro l off cur r hlen hbytes hmem
    have hnil : l = [] := List.length_eq_zero.mp (Nat.le_zero.mp hlen)
    subst hnil
    rw [dataRecords] at hmem
    simp at hmem
  | succ n ih =>
    intro l off cur r hlen hbytes hmem
    cases l with
    | nil =>
      rw [dataRecords] at hmem
      simp at hmem
    | cons b rest =>
      rw [dataRecords_cons] at hmem
      rcases List.mem_append.mp hmem with hela | hmem2
      · left
        by_cases hcur : cur = some (((base + off) >>> 16) &&& 0xFFFF)
        · rw [if_pos hcur] at hela
          simp at hela
        · rw [if_neg hcur] at hela
          simp at hela
          exact ⟨_, Nat.lt_of_le_of_lt Nat.and_le_right (by norm_num), hela⟩
      · rcases List.mem_cons.mp hmem2 with hdr | hrec
        · right
          refine ⟨_, _, fun x hx => hbytes x (List.take_subset _ _ hx), ?_,
            Nat.lt_of_le_of_lt Nat.and_le_right (by norm_num), hdr⟩
          rw [List.length_take]
          exact Nat.min_le_left _ _
        · have hdlen : ((b :: rest).drop 16).length ≤ n := by
            have h1 := List.length_drop 16 (b :: rest)
            have h2 : (b :: rest).length = rest.length + 1 := List.length_cons b rest
            omega
          exact ih _ _ _ _ hdlen (fun x hx => hbytes x (List.drop_subset _ _ hx)) hrec

/-- No record line of the encoder's output contains a newline. -/
theorem encodeRecords_no_nl (B : List Nat) (A : Nat) (hb : ∀ x ∈ B, x < 256) :
    ∀ r ∈ encodeRecords B A, ∀ c ∈ recordLine r, c ≠ '\n' := by
  intro r hr
  unfold encodeRecords at hr
  rcases List.mem_append.mp hr with hr2 | heof
  case inr =>
    have heq : r = eofRecord := by simpa using heof
    subst heq
    exact recordLine_no_nl eofRecord (by norm_num [eofRecord]) (by norm_num [eofRecord])
      (by norm_num [eofRecord]) (fun b hbm => by simp [eofRecord] at hbm)
      (by norm_num [eofRecord])
  rcases List.mem_append.mp hr2 with hd | hsla
  · rcases dataRecords_shape_strong A B.length B 0 none r le_rfl hb hd with
      ⟨u, hu, hru⟩ | ⟨c, a, hcb, hcl, haa, hrc⟩
    · subst hru
      refine recordLine_no_nl (elaRecord u) (by norm_num [elaRecord])
        (by norm_num [elaRecord]) (by norm_num [elaRecord]) ?_ (neg8_lt _)
      intro x hx
      simp only [elaRecord, List.mem_cons, List.not_mem_nil, or_false] at hx
      rcases hx with h | h <;> subst h
      · rw [shiftRight_8_eq_div]; omega
      · rw [and_255_eq_mod]; omega
    · subst hrc
      exact recordLine_no_nl (dataRecord c a) (by simp [dataRecord]; omega)
        (by simpa [dataRecord] using haa) (by norm_num [dataRecord]) hcb (neg8_lt _)
  · by_cases h8 : 8 ≤ B.length
    · rw [if_pos h8] at hsla
      have heq : r = slaRecord (le32 (B.getD 4 0) (B.getD 5 0) (B.getD 6 0) (B.getD 7 0)) := by
        simpa using hsla
      subst heq
      have hv : le32 (B.getD 4 0) (B.getD 5 0) (B.getD 6 0) (B.getD 7 0) < 4294967296 :=
        le32_lt _ _ _ _ (hb _ (getD_mem_of_lt B 4 (by omega)))
          (hb _ (getD_mem_of_lt B 5 (by omega))) (hb _ (getD_mem_of_lt B 6 (by omega)))
          (hb _ (getD_mem_of_lt B 7 (by omega)))
      exact recordLine_no_nl _ (by norm_num [slaRecord]) (by norm_num [slaRecord])
        (by norm_num [slaRecord]) (packBe32_bytes _ hv) (neg8_lt _)
    · rw [if_neg h8] at hsla
      simp at hsla

/-- Claim C1 (amended): for every binary byte sequence `B` and base address
`A` with `A + |B| ≤ 2^32` (so the 32-bit load addresses do not wrap),
parsing the Intel HEX text produced by encoding `B` at `A` reconstructs `B`
exactly whenever `B`'s length is a multiple of the encoder's 16-byte chunk
size (the encoded stream is then gap-free); and whenever the parser
processes a data record whose load address lies past the end of the
already-reconstructed bytes, the bytes of the gap region all equal `0xFF`. -/
theorem claim_C1 :
    (∀ (B : List Nat) (A : Nat), (∀ b ∈ B, b < 256) → A + B.length ≤ 4294967296 →
      B.length % 16 = 0 → parse_intel_hex (bin_to_intel_hex B A) = B)
    ∧ (∀ (st : PState) (bv : Nat) (ds : List Nat) (a : Nat),
        st.baseAddress = some bv → ds ≠ [] → ds.length < 256 → a < 65536 →
        bv + st.data.length ≤ st.extendedAddr + a →
        ∀ j, st.data.length ≤ j →
          (j : Int) < ((st.extendedAddr + a : Nat) : Int) - (bv : Int) →
          (processLine st (recordLine (dataRecord ds a))).data[j]? = some 0xFF) := by
  constructor
  · intro B A hb hbound hmul
    unfold parse_intel_hex bin_to_intel_hex
    rw [foldl_splitLines (encodeRecords B A) (encodeRecords_no_nl B A hb) _]
    unfold encodeRecords
    rw [List.foldl_append, List.foldl_append]
    obtain ⟨hdata, hnil, hbase⟩ := fold_dataRecords A B.length B 0 none ⟨[], 0, none⟩
      le_rfl hb (by omega) rfl (Or.inr ⟨rfl, rfl⟩) (fun u hu => by cases hu)
    have hsla : (if 8 ≤ B.length then
        [slaRecord (le32 (B.getD 4 0) (B.getD 5 0) (B.getD 6 0) (B.getD 7 0))]
      else []).foldl (fun s r => processLine s (recordLine r))
        ((dataRecords A B 0 none).foldl (fun s r => processLine s (recordLine r))
          ⟨[], 0, none⟩)
        = (dataRecords A B 0 none).foldl (fun s r => processLine s (recordLine r))
          ⟨[], 0, none⟩ := by
      by_cases h8 : 8 ≤ B.length
      · rw [if_pos h8, List.foldl_cons, List.foldl_nil]
        exact processLine_skip _ _ (by norm_num [slaRecord]) (by norm_num [slaRecord])
          (by norm_num [slaRecord]) (by norm_num [slaRecord]) (by norm_num [slaRecord])
      · rw [if_neg h8, List.foldl_nil]
    rw [hsla, List.foldl_cons, List.foldl_nil]
    rw [processLine_skip _ eofRecord (by norm_num [eofRecord]) (by norm_num [eofRecord])
      (by norm_num [eofRecord]) (by norm_num [eofRecord]) (by norm_num [eofRecord])]
    rw [hdata]
    rfl
  · intro st bv ds a hbase hne hlen ha hgap j hj1 hj2
    exact processLine_data_gap st bv ds a hbase hne hlen ha hgap j hj1 hj2

/-- Witness for C1: a 16-byte binary at the application base address round
trips, and a gap byte reads back as `0xFF`. -/
theorem claim_C1_witness :
    (∀ b ∈ (List.replicate 16 171 : List Nat), b < 256)
    ∧ 134316032 + (List.replicate 16 171 : List Nat).length ≤ 4294967296
    ∧ parse_intel_hex (bin_to_intel_hex (List.replicate 16 171) 134316032)
        = List.replicate 16 171
    ∧ (processLine ⟨List.replicate 4 9, 0, some 100⟩
        (recordLine (dataRecord [1] 300))).data[5]? = some 0xFF :=
  ⟨by decide, by decide,
   claim_C1.1 (List.replicate 16 171) 134316032 (by decide) (by decide) (by decide),
   claim_C1.2 ⟨List.replicate 4 9, 0, some 100⟩ 100 [1] 300 rfl (by decide) (by decide)
     (by decide) (by decide) 5 (by decide) (by decide)⟩

/-- Counterexample to claim C1 as stated: the claim quantifies over every
base address, but for a 32-byte binary (a multiple of the chunk size, no
gaps) at base address `0xFFFFFFF0` the second chunk's 32-bit address wraps
(the encoder masks the upper bits), the parser computes a negative offset
for the wrapped record, the assignment raises `IndexError` and the line is
skipped, so only the first 16 bytes are reconstructed. -/
theorem claim_C1_counterexample :
    (List.replicate 32 1 : List Nat).length % 16 = 0
    ∧ parse_intel_hex (bin_to_intel_hex (List.replicate 32 1) 4294967280)
        ≠ List.replicate 32 1 := by
  refine ⟨by decide, ?_⟩
  have hrecs : encodeRecords (List.replicate 32 1) 4294967280
      = [elaRecord 65535, dataRecord (List.replicate 16 1) 65520,
         elaRecord 0, dataRecord (List.replicate 16 1) 0,
         slaRecord 16843009, eofRecord] := by
    unfold encodeRecords
    rw [show (List.replicate 32 1 : List Nat) = 1 :: List.replicate 31 1 from rfl]
    rw [dataRecords_cons]
    rw [show ((1 :: List.replicate 31 1 : List Nat).drop 16)
      = 1 :: List.replicate 15 1 from by decide]
    rw [dataRecords_cons]
    rw [show ((1 :: List.replicate 15 1 : List Nat).drop 16) = ([] : List Nat) from by decide]
    rw [dataRecords]
    decide
  have hnl := encodeRecords_no_nl (List.replicate 32 1) 4294967280 (by decide)
  rw [hrecs] at hnl
  unfold parse_intel_hex bin_to_intel_hex
  rw [hrecs, foldl_splitLines _ hnl]
  simp only [List.foldl_cons, List.foldl_nil]
  have s1 : processLine ⟨[], 0, none⟩ (recordLine (elaRecord 65535))
      = ⟨[], 4294901760, none⟩ := by
    rw [processLine_ela _ 65535 (by norm_num)]
    decide
  have s2 : processLine ⟨[], 4294901760, none⟩
      (recordLine (dataRecord (List.replicate 16 1) 65520))
      = ⟨List.replicate 16 1, 4294901760, some 4294967280⟩ := by
    rw [processLine_data ⟨[], 4294901760, none⟩ (List.replicate 16 1) 65520
      (by decide) (by decide) (by decide) (by decide) (by decide)]
    decide
  have s3 : processLine ⟨List.replicate 16 1, 4294901760, some 4294967280⟩
      (recordLine (elaRecord 0))
      = ⟨List.replicate 16 1, 0, some 4294967280⟩ := by
    rw [processLine_ela _ 0 (by norm_num)]
    decide
  have s4 : processLine ⟨List.replicate 16 1, 0, some 4294967280⟩
      (recordLine (dataRecord (List.replicate 16 1) 0))
      = ⟨List.replicate 16 1, 0, some 4294967280⟩ := by
    rw [processLine_data_oob ⟨List.replicate 16 1, 0, some 4294967280⟩
      4294967280 (List.replicate 16 1) 0 rfl (by decide) (by decide) (by decide) (by decide)]
  have s5 : processLine ⟨List.replicate 16 1, 0, some 4294967280⟩
      (recordLine (slaRecord 16843009))
      = ⟨List.replicate 16 1, 0, some 4294967280⟩ :=
    processLine_skip _ _ (by norm_num [slaRecord]) (by norm_num [slaRecord])
      (by norm_num [slaRecord]) (by norm_num [slaRecord]) (by norm_num [slaRecord])
  have s6 : processLine ⟨List.replicate 16 1, 0, some 4294967280⟩
      (recordLine eofRecord)
      = ⟨List.replicate 16 1, 0, some 4294967280⟩ :=
    processLine_skip _ _ (by norm_num [eofRecord]) (by norm_num [eofRecord])
      (by norm_num [eofRecord]) (by norm_num [eofRecord]) (by norm_num [eofRecord])
  rw [s1, s2, s3, s4, s5, s6]
  decide

end Updater
